import Mathlib

/-!
Verification of the ART register-allocation core
(`compiler/optimizing/register_allocator.cc`): live-interval model,
splitting, call-clobber masks and the interference validator.

Machine integers (`uint32_t` masks) are modelled as `Nat`; all masks are
built from register files of size at most 32, so no overflow arises.
The `SsaLivenessAnalysis`, `LiveInterval::SplitAt` and CFG structures are
external collaborators (not part of the translated file); they are modelled
from the specification where needed, as noted on each definition.
-/

namespace ART

/-- A live range `[start, end)` of program positions (`LiveRange` in
`ssa_liveness_analysis.h`; used by the translated file through
`GetStart`/`GetEnd`/`GetNext`). -/
structure LiveRange where
  start : Nat
  «end» : Nat
deriving DecidableEq, Inhabited

/-- `kVRegSize`: size in bytes of a virtual-register stack slot. -/
def kVRegSize : Nat := 4

/-- `MaxInt<uint32_t>(n)`: the all-ones mask of width `n` bits. -/
def MaxInt (n : Nat) : Nat := 2 ^ n - 1

/-- `GetBlockedRegistersForCall(num_registers, is_callee_save)`
(register_allocator.cc, lines 33-42): a mask with one bit set per
register that is not callee-saved. -/
def GetBlockedRegistersForCall (num_registers : Nat) (is_callee_save : Nat → Bool) : Nat :=
  (List.range num_registers).foldl
    (fun mask reg => if is_callee_save reg then mask else mask ||| (1 <<< reg)) 0

/-- `RegisterAllocator::RegisterType` (core vs floating point). -/
inductive RegisterType where
  | kCoreRegister
  | kFpRegister
deriving DecidableEq

/-- The per-sibling state of a `LiveInterval` that `GetRegisterMask` and
`ValidateIntervals` read: the sibling's own ranges, its assigned register
(`HasRegister`/`GetRegister`), the `IsFixed` flag and the same-as-input
flags (`IsUsingInputRegister`/`CanUseInputRegister`). -/
structure LiveInterval where
  ranges : List LiveRange
  register : Option Nat
  isFixed : Bool
  isUsingInputRegister : Bool
  canUseInputRegister : Bool
deriving DecidableEq, Inhabited

/-- The cached state of a `RegisterAllocator` instance that
`GetRegisterMask` consults (register_allocator.cc, lines 54-64):
register-file sizes, the two cached call-clobber masks, and the liveness
lookup `GetInstructionFromPosition(pos) != nullptr`. -/
structure RegisterAllocatorState where
  num_core_registers : Nat
  num_fp_registers : Nat
  core_registers_blocked_for_call : Nat
  fp_registers_blocked_for_call : Nat
  livenessInstrAt : Nat → Bool

/-- The `RegisterAllocator` constructor (lines 54-64): caches both
register counts and eagerly computes both call-clobber masks from the
code generator's callee-save predicates. -/
def mkRegisterAllocator (numCore numFp : Nat)
    (isCoreCalleeSave isFpCalleeSave : Nat → Bool)
    (livenessInstrAt : Nat → Bool) : RegisterAllocatorState :=
  { num_core_registers := numCore
    num_fp_registers := numFp
    core_registers_blocked_for_call := GetBlockedRegistersForCall numCore isCoreCalleeSave
    fp_registers_blocked_for_call := GetBlockedRegistersForCall numFp isFpCalleeSave
    livenessInstrAt := livenessInstrAt }

/-- `RegisterAllocator::GetRegisterMask(interval, register_type)`
(lines 139-162): singleton mask for an assigned register; for a fixed
interval, the cached call-clobber mask when the single range's start
maps to an instruction (a call), else the full mask; `0` otherwise. -/
def GetRegisterMask (ra : RegisterAllocatorState) (interval : LiveInterval)
    (register_type : RegisterType) : Nat :=
  match interval.register with
  | some r => 1 <<< r
  | none =>
    if interval.isFixed then
      let start := (interval.ranges.headD default).start
      let blocked_for_call := ra.livenessInstrAt (start / 2)
      match register_type with
      | .kCoreRegister =>
        if blocked_for_call then ra.core_registers_blocked_for_call
        else MaxInt ra.num_core_registers
      | .kFpRegister =>
        if blocked_for_call then ra.fp_registers_blocked_for_call
        else MaxInt ra.num_fp_registers
    else 0

/-- The static `get_register_mask` lambda inside `ValidateIntervals`
(lines 181-198): a copy of `GetRegisterMask` over the explicit local
`number_of_registers` and `registers_blocked_for_call`, with
`CHECK(liveness != nullptr)` guarding the fixed-interval lookup.
`none` models the `CHECK` failure (hard abort). -/
def get_register_mask (number_of_registers : Nat) (registers_blocked_for_call : Nat)
    (liveness : Option (Nat → Bool)) (interval : LiveInterval) : Option Nat :=
  match interval.register with
  | some r => some (1 <<< r)
  | none =>
    if interval.isFixed then
      match liveness with
      | none => none
      | some l =>
        let start := (interval.ranges.headD default).start
        let blocked_for_call := l (start / 2)
        some (if blocked_for_call then registers_blocked_for_call
              else MaxInt number_of_registers)
    else some 0

/-- Kind of the defining instruction of a parent interval, as far as
`ValidateIntervals` distinguishes it (`IsParameterValue`,
`IsCurrentMethod`, anything else). -/
inductive DefinedByKind where
  | parameterValue
  | currentMethod
  | other
deriving DecidableEq

/-- One entry of the `intervals` argument of `ValidateIntervals`: a start
interval together with the data `AllRangesIterator` and the validation
loop read from it.  `siblings` is the sibling chain walked by
`AllRangesIterator` (head first); `spillSlot` and `definedBy` are the
parent's `GetSpillSlot` (byte offset; `none` for `!HasSpillSlot`) and
`GetDefinedBy`. -/
structure IntervalChain where
  spillSlot : Option Nat
  definedBy : Option DefinedByKind
  siblings : List LiveInterval
deriving DecidableEq, Inhabited

/-- `defined_by != nullptr && (defined_by->IsParameterValue() ||
defined_by->IsCurrentMethod())` (lines 226-227). -/
def definedByExempt (c : IntervalChain) : Bool :=
  match c.definedBy with
  | some .parameterValue => true
  | some .currentMethod => true
  | _ => false

/-- One step of the validation loops: a (sibling interval, live range)
pair together with its parent's spill slot and defining-value kind.
`AllRangesIterator` enumerates exactly these, chain by chain, sibling by
sibling, range by range. -/
structure VItem where
  spillSlot : Option Nat
  defIsParamOrCurrentMethod : Bool
  sib : LiveInterval
  range : LiveRange
deriving DecidableEq, Inhabited

/-- The items `AllRangesIterator` enumerates for one start interval. -/
def chainItems (c : IntervalChain) : List VItem :=
  c.siblings.flatMap fun s =>
    s.ranges.map fun r => VItem.mk c.spillSlot (definedByExempt c) s r

/-- All items of the validation run, in iteration order. -/
def allItems (cs : List IntervalChain) : List VItem :=
  cs.flatMap chainItems

/-- The bit timelines `liveness_of_values`: one boolean per
(value index, position).  Value indices below `number_of_registers` are
registers; the rest are spill slots. -/
abbrev Timelines : Type := Nat → Nat → Bool

/-- `SetBit` on one timeline. -/
def setBit (tl : Timelines) (v p : Nat) : Timelines :=
  fun w q => if w = v ∧ q = p then true else tl w q

/-- The all-clear initial timelines (`ClearAllBits`). -/
def emptyTl : Timelines := fun _ _ => false

/-- The inner marking loop `for (j = start; j < end; ++j)` shared by the
spill-slot check (no exemption, `exempt = false`) and the register check
(where `exempt` is the same-as-input exemption and a set bit is skipped
with `continue`).  Returns the first conflicting position, or the updated
timelines. -/
def markPositions (exempt : Bool) (tl : Timelines) (v : Nat) :
    List Nat → Except Nat Timelines
  | [] => .ok tl
  | p :: ps =>
    if tl v p then
      if exempt then markPositions exempt tl v ps
      else .error p
    else markPositions exempt (setBit tl v p) v ps

/-- The positions of a live range, `[start, end)`. -/
def rangePositions (r : LiveRange) : List Nat :=
  List.range' r.start (r.«end» - r.start)

/-- The set bits of a `uint32_t` mask, low to high (`LowToHighBits`). -/
def maskBits (m : Nat) : List Nat :=
  (List.range 32).filter fun r => m.testBit r

/-- Outcome of a `ValidateIntervals` run: a normal boolean return, a
`CHECK` failure (hard abort), or a `LOG(FATAL)` conflict report carrying
the data of the diagnostic message. -/
inductive VResult where
  | ret (b : Bool)
  | checkFail
  | fatalSpillConflict (pos : Nat)
  | fatalRegConflict (pos : Nat) (reg : Nat)
deriving DecidableEq

/-- The parameters threaded through one `ValidateIntervals` run:
the local `number_of_registers` and `registers_blocked_for_call`, the
`number_of_out_slots` argument, the (possibly null) liveness lookup, the
`kIsDebugBuild` flag, the codegen's `HasAllocatedRegister` query for the
chosen register type, and `log_fatal_on_failure`. -/
structure VConfig where
  number_of_registers : Nat
  registers_blocked_for_call : Nat
  number_of_out_slots : Nat
  liveness : Option (Nat → Bool)
  debugBuild : Bool
  hasAllocatedRegister : Nat → Bool
  log_fatal_on_failure : Bool

/-- The timeline index of a spill slot:
`number_of_registers + spill_slot / kVRegSize - number_of_out_slots`
(lines 228-230). -/
def slotIndex (cfg : VConfig) (slot : Nat) : Nat :=
  cfg.number_of_registers + slot / kVRegSize - cfg.number_of_out_slots

/-- The spill-slot check of the validation loop (lines 224-244): if the
parent has a spill slot and the defining value is not a parameter or
current-method value, mark the slot's timeline over the range; a set bit
is a conflict (fatal or boolean failure by mode). -/
def processSpill (cfg : VConfig) (tl : Timelines) (it : VItem) :
    Except VResult Timelines :=
  match it.spillSlot with
  | none => .ok tl
  | some slot =>
    if it.defIsParamOrCurrentMethod then .ok tl
    else
      match markPositions false tl (slotIndex cfg slot) (rangePositions it.range) with
      | .ok tl1 => .ok tl1
      | .error j =>
        .error (if cfg.log_fatal_on_failure then .fatalSpillConflict j else .ret false)

/-- The register check of the validation loop (lines 246-285): for each
register of the mask, the debug-build `CHECK(HasAllocatedRegister)`
(only when failures are fatal and the interval is not fixed), then the
timeline marking with the same-as-input exemption. -/
def processRegs (cfg : VConfig) (it : VItem) (exempt : Bool) :
    Timelines → List Nat → Except VResult Timelines
  | tl, [] => .ok tl
  | tl, r :: rest =>
    if cfg.debugBuild && cfg.log_fatal_on_failure && !it.sib.isFixed
        && !cfg.hasAllocatedRegister r then
      .error .checkFail
    else
      match markPositions exempt tl r (rangePositions it.range) with
      | .ok tl1 => processRegs cfg it exempt tl1 rest
      | .error j =>
        .error (if cfg.log_fatal_on_failure then .fatalRegConflict j r else .ret false)

/-- Validation of one (interval, range) item: spill-slot check first,
then `get_register_mask` (whose `CHECK(liveness != nullptr)` may abort),
then the register check. -/
def processItem (cfg : VConfig) (tl : Timelines) (it : VItem) :
    Except VResult Timelines :=
  match processSpill cfg tl it with
  | .error r => .error r
  | .ok tl1 =>
    match get_register_mask cfg.number_of_registers cfg.registers_blocked_for_call
        cfg.liveness it.sib with
    | none => .error .checkFail
    | some m =>
      processRegs cfg it (it.sib.isUsingInputRegister && it.sib.canUseInputRegister)
        tl1 (maskBits m)

/-- The outer validation loop over all items; returns `true` when every
item processed without conflict (line 288). -/
def runItems (cfg : VConfig) : Timelines → List VItem → VResult
  | _, [] => .ret true
  | tl, it :: rest =>
    match processItem cfg tl it with
    | .error r => r
    | .ok tl1 => runItems cfg tl1 rest

/-- The run configuration `ValidateIntervals` builds for a register type:
register count and blocked-for-call mask from the code generator
(lines 171-176). -/
def mkVConfig (number_of_registers : Nat) (is_callee_save : Nat → Bool)
    (number_of_out_slots : Nat) (liveness : Option (Nat → Bool))
    (debugBuild : Bool) (hasAllocatedRegister : Nat → Bool)
    (log_fatal_on_failure : Bool) : VConfig :=
  { number_of_registers := number_of_registers
    registers_blocked_for_call :=
      GetBlockedRegistersForCall number_of_registers is_callee_save
    number_of_out_slots := number_of_out_slots
    liveness := liveness
    debugBuild := debugBuild
    hasAllocatedRegister := hasAllocatedRegister
    log_fatal_on_failure := log_fatal_on_failure }

/-- `RegisterAllocator::ValidateIntervals` (lines 164-289).  The register
count and call-clobber mask come from the code generator's size and
callee-save predicate for the requested type; `number_of_spill_slots`
only sizes the (here unbounded) timelines.  All ranges of all siblings
are replayed in iteration order against per-register and per-slot
timelines. -/
def ValidateIntervals (intervals : List IntervalChain)
    (number_of_spill_slots number_of_out_slots : Nat)
    (number_of_registers : Nat) (is_callee_save : Nat → Bool)
    (hasAllocatedRegister : Nat → Bool) (liveness : Option (Nat → Bool))
    (debugBuild : Bool) (log_fatal_on_failure : Bool) : VResult :=
  let _ := number_of_spill_slots
  runItems
    (mkVConfig number_of_registers is_callee_save number_of_out_slots liveness
      debugBuild hasAllocatedRegister log_fatal_on_failure)
    emptyTl (allItems intervals)

/-- The register mask an item's interval contributes during validation
(`0` when `get_register_mask` would abort, a case the conflict lemmas
exclude). -/
def itemMask (cfg : VConfig) (it : VItem) : Nat :=
  (get_register_mask cfg.number_of_registers cfg.registers_blocked_for_call
    cfg.liveness it.sib).getD 0

/-- The (value index, position) pairs an item's spill-slot check writes. -/
def slotMarks (cfg : VConfig) (it : VItem) : List (Nat × Nat) :=
  match it.spillSlot with
  | none => []
  | some slot =>
    if it.defIsParamOrCurrentMethod then []
    else (rangePositions it.range).map fun p => (slotIndex cfg slot, p)

/-- The (register, position) pairs an item's register check writes. -/
def regMarks (cfg : VConfig) (it : VItem) : List (Nat × Nat) :=
  (maskBits (itemMask cfg it)).flatMap fun r =>
    (rangePositions it.range).map fun p => (r, p)

/-- All (value index, position) pairs an item touches. -/
def marks (cfg : VConfig) (it : VItem) : List (Nat × Nat) :=
  slotMarks cfg it ++ regMarks cfg it

/-- The same-as-input exemption of an item. -/
def itemExempt (it : VItem) : Bool :=
  it.sib.isUsingInputRegister && it.sib.canUseInputRegister

/-- An item processes without conflict against the already-set marks `S`:
its slot marks are fresh, and, unless exempt, its register marks hit
neither `S` nor its own freshly-set slot marks. -/
def itemConflictFree (cfg : VConfig) (S : List (Nat × Nat)) (it : VItem) : Prop :=
  (∀ m ∈ slotMarks cfg it, m ∉ S) ∧
    (itemExempt it = false →
      ∀ m ∈ regMarks cfg it, m ∉ S ∧ m ∉ slotMarks cfg it)

/-- Every item of the list processes without conflict, each against the
marks accumulated before it. -/
def conflictFreeList (cfg : VConfig) : List (Nat × Nat) → List VItem → Prop
  | _, [] => True
  | S, it :: rest =>
    itemConflictFree cfg S it ∧ conflictFreeList cfg (S ++ marks cfg it) rest

/-- A timelines function realizes exactly a set of marks. -/
def tlInv (tl : Timelines) (S : List (Nat × Nat)) : Prop :=
  ∀ v p, tl v p = decide ((v, p) ∈ S)

/-- Liveness of a set of ranges at a position (`[start, end)` coverage,
per the data model of the spec: a value is live during its ranges). -/
def covers (rs : List LiveRange) (q : Nat) : Prop :=
  ∃ r ∈ rs, r.start ≤ q ∧ q < r.«end»

instance (rs : List LiveRange) (q : Nat) : Decidable (covers rs q) := by
  unfold covers; infer_instance

/-- The well-formedness invariant of an interval's range list (spec §3):
nonempty ranges, strictly ordered, non-overlapping. -/
def rangesWF : List LiveRange → Bool
  | [] => true
  | [r] => r.start < r.«end»
  | r :: r2 :: rs => r.start < r.«end» && r.«end» ≤ r2.start && rangesWF (r2 :: rs)

/-- Modelled from the spec: the range-list split underlying
`LiveInterval::SplitAt` (ssa_liveness_analysis, not part of the
translated file).  The prefix keeps the positions before `position`, the
suffix the positions from `position` on; a range straddling `position`
is cut in two. -/
def splitRangesAt (position : Nat) : List LiveRange → List LiveRange × List LiveRange
  | [] => ([], [])
  | r :: rs =>
    if r.«end» ≤ position then
      let s := splitRangesAt position rs
      (r :: s.1, s.2)
    else if r.start < position then
      ([⟨r.start, position⟩], ⟨position, r.«end»⟩ :: rs)
    else
      ([], r :: rs)

/-- One interval record of the split model: ranges, assigned register,
sibling link, and the high/low companion links, all by stable store
index (the spec's recommended representation of the pointer graph). -/
structure IntervalData where
  ranges : List LiveRange
  register : Option Nat
  nextSibling : Option Nat
  high : Option Nat
  low : Option Nat
deriving DecidableEq, Inhabited

/-- The arena of interval records, addressed by index. -/
abbrev Store : Type := List IntervalData

/-- Read an interval record (out-of-range reads yield the default record;
every theorem bounds its indices). -/
def sget (st : Store) (i : Nat) : IntervalData :=
  List.getD st i default

/-- `GetStart()`: the start of the interval's first range. -/
def intervalStart (d : IntervalData) : Nat :=
  (d.ranges.headD default).start

/-- Modelled from the spec: `LiveInterval::SplitAt(position)`
(ssa_liveness_analysis, not part of the translated file): creates a new
interval holding the suffix of the original's live ranges, linked as the
original's next sibling, and truncates the original to the prefix.
Returns the updated store and the new interval's index. -/
def SplitAt (st : Store) (i position : Nat) : Store × Nat :=
  let d := sget st i
  let cut := splitRangesAt position d.ranges
  let ni := st.length
  (st.set i { d with ranges := cut.1, nextSibling := some ni } ++
      [{ ranges := cut.2, register := none, nextSibling := d.nextSibling,
         high := none, low := none }],
    ni)

/-- `RegisterAllocator::Split(interval, position)` (lines 291-316).
At the interval's own start: clears the register of the interval and of
its high/low companion, creating nothing.  Otherwise: `SplitAt` the
interval and, if present, its companion at the same position, and
cross-link the two new halves. -/
def Split (st : Store) (i position : Nat) : Store × Nat :=
  let d := sget st i
  if position = intervalStart d then
    let st1 := st.set i { d with register := none }
    match d.high with
    | some h => (st1.set h { sget st1 h with register := none }, i)
    | none =>
      match d.low with
      | some lo => (st1.set lo { sget st1 lo with register := none }, i)
      | none => (st1, i)
  else
    let s1 := SplitAt st i position
    match d.high with
    | some h =>
      let s2 := SplitAt s1.1 h position
      ((s2.1.set s1.2 { sget s2.1 s1.2 with high := some s2.2 }).set s2.2
          { sget s2.1 s2.2 with low := some s1.2 },
        s1.2)
    | none =>
      match d.low with
      | some lo =>
        let s2 := SplitAt s1.1 lo position
        ((s2.1.set s1.2 { sget s2.1 s1.2 with low := some s2.2 }).set s2.2
            { sget s2.1 s2.2 with high := some s1.2 },
          s1.2)
      | none => s1

/-- Modelled from the spec: the liveness/CFG collaborator consumed by
`SplitBetween` (§6: position-to-block lookup, per-block lifetime start,
dominator and dominated blocks, outward loop-header chain). Blocks are
indices. -/
structure Graph where
  lifetimeStart : Nat → Nat
  dominatorOf : Nat → Option Nat
  dominatedOf : Nat → List Nat
  loopHeaders : Nat → List Nat
  blockFromPosition : Nat → Option Nat

/-- The dominated-block scan of `SplitBetween` (lines 350-361): walk the
blocks dominated by the `from`-block's dominator, keeping any block whose
lifetime start lies strictly after `from` and strictly before the current
target's lifetime start. -/
def domScan (g : Graph) (f : Nat) (bf bt : Nat) : Nat :=
  match g.dominatorOf bf with
  | none => bt
  | some dom =>
    (g.dominatedOf dom).foldl
      (fun acc d =>
        if f < g.lifetimeStart d ∧ g.lifetimeStart d < g.lifetimeStart acc then d
        else acc)
      bt

/-- The loop-hoisting walk of `SplitBetween` (lines 364-370): follow the
target block's outward loop-header chain while the `from`-block starts
strictly before the header, promoting the target to the header. -/
def loopPromote (g : Graph) (bf : Nat) : Nat → List Nat → Nat
  | bt, [] => bt
  | bt, h :: rest =>
    if g.lifetimeStart bf ≥ g.lifetimeStart h then bt
    else loopPromote g bf h rest

/-- The split position `SplitBetween` passes to `Split`: `to` when both
positions share a block, otherwise the lifetime start of the block found
by the dominated scan and the loop-hoisting walk. -/
def splitBetweenPos (g : Graph) (bf bt : Nat) (f t : Nat) : Nat :=
  if bf = bt then t
  else
    let bt1 := domScan g f bf bt
    g.lifetimeStart (loopPromote g bf bt1 (g.loopHeaders bt1))

/-- `RegisterAllocator::SplitBetween(interval, from, to)` (lines 318-375).
`none` models the debug-assert failure when a position maps to no block. -/
def SplitBetween (g : Graph) (st : Store) (i : Nat) (f t : Nat) :
    Option (Store × Nat) :=
  match g.blockFromPosition (f / 2), g.blockFromPosition (t / 2) with
  | some bf, some bt => some (Split st i (splitBetweenPos g bf bt f t))
  | _, _ => none

/-- Modelled from the spec: the earliest element of minimal value — the
candidate the spec's scan description keeps ("the one with the smallest
such start; ties resolved by continuing the scan"). -/
def firstMinBy (val : Nat → Nat) : List Nat → Option Nat
  | [] => none
  | a :: l =>
    match firstMinBy val l with
    | none => some a
    | some b => if val b < val a then some b else some a

/-- Modelled from the spec: step 2 of the `SplitBetween` algorithm as the
spec words it — filter the dominated blocks to those whose lifetime start
lies strictly between `from` and the `to`-block's lifetime start, and
keep the earliest one of minimal start (or the `to`-block if none
qualifies). -/
def domScanSpec (g : Graph) (f : Nat) (bf bt : Nat) : Nat :=
  match g.dominatorOf bf with
  | none => bt
  | some dom =>
    let qualified := (g.dominatedOf dom).filter fun d =>
      decide (f < g.lifetimeStart d) && decide (g.lifetimeStart d < g.lifetimeStart bt)
    (firstMinBy g.lifetimeStart qualified).getD bt

/-- Modelled from the spec: step 3 of the `SplitBetween` algorithm as the
spec words it — promote the target to the outermost enclosing loop header
that still starts strictly after the `from`-block's start (the last
header of the chain passing that test, headers taken outward while the
test holds). -/
def loopPromoteSpec (g : Graph) (bf bt : Nat) : Nat :=
  ((g.loopHeaders bt).takeWhile fun h =>
      decide (g.lifetimeStart bf < g.lifetimeStart h)).getLastD bt

/-- Modelled from the spec: the split position of the `SplitBetween`
algorithm as described by the spec's four steps. -/
def splitBetweenPosSpec (g : Graph) (bf bt : Nat) (f t : Nat) : Nat :=
  if bf = bt then t
  else g.lifetimeStart (loopPromoteSpec g bf (domScanSpec g f bf bt))

end ART

namespace ART

/-- Unfolding lemma: the blocked-for-call mask over `n + 1` registers. -/
theorem GetBlockedRegistersForCall_succ (n : Nat) (p : Nat → Bool) :
    GetBlockedRegistersForCall (n + 1) p =
      if p n then GetBlockedRegistersForCall n p
      else GetBlockedRegistersForCall n p ||| (1 <<< n) := by
  unfold GetBlockedRegistersForCall
  rw [List.range_succ, List.foldl_append]
  simp

/-- Bit `r` of the blocked-for-call mask is set iff `r < n` and register
`r` is not callee-saved (no width hypothesis needed in the `Nat` model). -/
theorem testBit_GetBlockedRegistersForCall (n : Nat) (p : Nat → Bool) (r : Nat) :
    (GetBlockedRegistersForCall n p).testBit r = (decide (r < n) && !p r) := by
  induction n with
  | zero =>
    simp [GetBlockedRegistersForCall, Nat.testBit]
  | succ n ih =>
    rw [GetBlockedRegistersForCall_succ]
    by_cases hp : p n = true
    · rw [if_pos hp, ih]
      rcases Nat.lt_trichotomy r n with h | h | h
      · simp [h, Nat.lt_succ_of_lt h]
      · subst h; simp [hp]
      · simp [Nat.not_lt.mpr (Nat.le_of_lt h), Nat.not_lt.mpr (Nat.succ_le_of_lt h)]
    · have hp' : p n = false := by revert hp; cases p n <;> simp
      rw [if_neg (by simp [hp'])]
      simp only [Nat.testBit_or, ih, Nat.one_shiftLeft, Nat.testBit_two_pow]
      rcases Nat.lt_trichotomy r n with h | h | h
      · simp [h, Nat.lt_succ_of_lt h, Nat.ne_of_gt h]
      · subst h; simp [hp']
      · simp [Nat.not_lt.mpr (Nat.le_of_lt h), Nat.not_lt.mpr (Nat.succ_le_of_lt h),
          Nat.ne_of_lt h]

theorem sget_set_self (st : Store) (i : Nat) (d : IntervalData) (h : i < st.length) :
    sget (st.set i d) i = d := by
  simp [sget, Store, List.getD_eq_getElem?_getD, List.getElem?_set_self h]

theorem sget_set_ne (st : Store) (i j : Nat) (d : IntervalData) (h : j ≠ i) :
    sget (st.set j d) i = sget st i := by
  simp [sget, Store, List.getD_eq_getElem?_getD, List.getElem?_set_ne h]

theorem sget_append_lt (st st2 : Store) (i : Nat) (h : i < st.length) :
    sget (st ++ st2) i = sget st i := by
  simp [sget, Store, List.getD_eq_getElem?_getD, List.getElem?_append_left h]

theorem sget_concat_length (st : Store) (d : IntervalData) :
    sget (st ++ [d]) st.length = d := by
  simp [sget, Store, List.getD_eq_getElem?_getD, List.getElem?_concat_length]

theorem sget_concat_length_set (st : Store) (j : Nat) (d e : IntervalData) :
    sget (st.set j d ++ [e]) st.length = e := by
  have : (st.set j d).length = st.length := List.length_set st j d
  rw [← this, sget_concat_length]

/-- C6: for every register-file size `n ≤ 32` and every callee-save
predicate, bit `r` of the computed call-clobber mask is set iff `r < n`
and register `r` is not callee-saved; all other bits are zero. -/
theorem C6_call_clobber_mask (n : Nat) (p : Nat → Bool) (hn : n ≤ 32) (r : Nat) :
    (GetBlockedRegistersForCall n p).testBit r = true ↔ (r < n ∧ p r = false) := by
  rw [testBit_GetBlockedRegistersForCall]
  cases hr : p r <;> simp [hr]

theorem C6_call_clobber_mask_witness :
    4 ≤ 32 ∧
      ((GetBlockedRegistersForCall 4 (fun reg => decide (reg = 3))).testBit 1 = true ↔
        (1 < 4 ∧ (fun reg : Nat => decide (reg = 3)) 1 = false)) :=
  ⟨by decide, C6_call_clobber_mask 4 (fun reg => decide (reg = 3)) (by decide) 1⟩

/-- C7: `GetRegisterMask` returns the singleton mask for an assigned
register; for a fixed interval without one, the cached call-clobber mask
when the single range's start maps to an instruction and the full mask
otherwise; and `0` for every other interval.  With 4 core registers and
only register 3 callee-saved, a fixed interval with range `[10, 12)`
yields `0b0111` when position 10 maps to a call and `0b1111` otherwise. -/
theorem C7_GetRegisterMask (numCore numFp : Nat) (csC csF : Nat → Bool)
    (lv : Nat → Bool) (iv : LiveInterval) (ty : RegisterType) :
    (∀ r, iv.register = some r →
      GetRegisterMask (mkRegisterAllocator numCore numFp csC csF lv) iv ty = 2 ^ r) ∧
    (iv.register = none → iv.isFixed = true →
      GetRegisterMask (mkRegisterAllocator numCore numFp csC csF lv) iv ty =
        if lv ((iv.ranges.headD default).start / 2) then
          (match ty with
           | .kCoreRegister => GetBlockedRegistersForCall numCore csC
           | .kFpRegister => GetBlockedRegistersForCall numFp csF)
        else
          (match ty with
           | .kCoreRegister => 2 ^ numCore - 1
           | .kFpRegister => 2 ^ numFp - 1)) ∧
    (iv.register = none → iv.isFixed = false →
      GetRegisterMask (mkRegisterAllocator numCore numFp csC csF lv) iv ty = 0) ∧
    (GetRegisterMask
        (mkRegisterAllocator 4 4 (fun r => decide (r = 3)) (fun _ => true) (fun pos => decide (pos = 5)))
        ⟨[⟨10, 12⟩], none, true, false, false⟩ .kCoreRegister = 7 ∧
      GetRegisterMask
        (mkRegisterAllocator 4 4 (fun r => decide (r = 3)) (fun _ => true) (fun _ => false))
        ⟨[⟨10, 12⟩], none, true, false, false⟩ .kCoreRegister = 15) := by
  refine ⟨?_, ?_, ?_, by decide, by decide⟩
  · intro r h
    simp [GetRegisterMask, h, Nat.one_shiftLeft]
  · intro h1 h2
    cases ty <;>
      simp [GetRegisterMask, mkRegisterAllocator, MaxInt, h1, h2]
  · intro h1 h2
    simp [GetRegisterMask, h1, h2]

theorem C7_GetRegisterMask_witness :
    GetRegisterMask
        (mkRegisterAllocator 4 2 (fun r => decide (r = 3)) (fun _ => true) (fun _ => false))
        ⟨[⟨0, 4⟩], some 2, false, false, false⟩ .kCoreRegister = 2 ^ 2 ∧
      GetRegisterMask
        (mkRegisterAllocator 4 2 (fun r => decide (r = 3)) (fun _ => true) (fun _ => false))
        ⟨[⟨0, 4⟩], none, false, false, false⟩ .kCoreRegister = 0 :=
  ⟨(C7_GetRegisterMask 4 2 (fun r => decide (r = 3)) (fun _ => true) (fun _ => false)
      ⟨[⟨0, 4⟩], some 2, false, false, false⟩ .kCoreRegister).1 2 rfl,
    (C7_GetRegisterMask 4 2 (fun r => decide (r = 3)) (fun _ => true) (fun _ => false)
      ⟨[⟨0, 4⟩], none, false, false, false⟩ .kCoreRegister).2.2.1 rfl rfl⟩

/-- C9: with a non-null liveness pointer, the static `get_register_mask`
variant of `ValidateIntervals`, fed the explicit register count and
call-clobber mask `ValidateIntervals` computes for a register type,
agrees with the instance method `GetRegisterMask` on every interval. -/
theorem C9_static_mask_agrees (numCore numFp : Nat) (csC csF : Nat → Bool)
    (lv : Nat → Bool) (iv : LiveInterval) (ty : RegisterType) :
    get_register_mask
        (match ty with
         | .kCoreRegister => numCore
         | .kFpRegister => numFp)
        (match ty with
         | .kCoreRegister => GetBlockedRegistersForCall numCore csC
         | .kFpRegister => GetBlockedRegistersForCall numFp csF)
        (some lv) iv
      = some (GetRegisterMask (mkRegisterAllocator numCore numFp csC csF lv) iv ty) := by
  cases ty <;> rcases h : iv.register with _ | r <;> cases hf : iv.isFixed <;>
    simp [get_register_mask, GetRegisterMask, mkRegisterAllocator, h, hf]

theorem firstMinBy_cons (val : Nat → Nat) (a : Nat) (l : List Nat) :
    firstMinBy val (a :: l) =
      match firstMinBy val l with
      | none => some a
      | some b => if val b < val a then some b else some a := rfl

theorem firstMinBy_eq_none_iff (val : Nat → Nat) (l : List Nat) :
    firstMinBy val l = none ↔ l = [] := by
  cases l with
  | nil => simp [firstMinBy]
  | cons a l =>
    rw [firstMinBy_cons]
    rcases h : firstMinBy val l with _ | b
    · simp
    · simp only
      split <;> simp

/-- Filtering a list to the elements strictly below a threshold commutes
with taking the earliest minimum. -/
theorem firstMinBy_filter_lt (val : Nat → Nat) (d : Nat) (L : List Nat) :
    firstMinBy val (L.filter fun x => decide (val x < val d)) =
      (firstMinBy val L).bind fun b => if val b < val d then some b else none := by
  induction L with
  | nil => simp [firstMinBy]
  | cons a L ih =>
    rcases hM : firstMinBy val L with _ | b
    · have hL : L = [] := (firstMinBy_eq_none_iff val L).mp hM
      subst hL
      by_cases ha : val a < val d <;> simp [firstMinBy, ha]
    · by_cases ha : val a < val d
      · rw [List.filter_cons_of_pos (by simpa using ha)]
        simp only [firstMinBy_cons, ih, hM]
        by_cases hb : val b < val d
        · by_cases hba : val b < val a
          · simp [hb, hba]
          · simp [hb, hba, ha]
        · have hba : ¬ val b < val a := fun h => hb (h.trans ha)
          simp [hb, hba, ha]
      · rw [List.filter_cons_of_neg (by simpa using ha)]
        simp only [firstMinBy_cons, ih, hM]
        by_cases hba : val b < val a
        · simp [hba]
        · have hb : ¬ val b < val d := fun h => by
            have hda : val d ≤ val a := Nat.le_of_not_lt ha
            have hab : val a ≤ val b := Nat.le_of_not_lt hba
            exact Nat.lt_irrefl _ (Nat.lt_of_lt_of_le (Nat.lt_of_lt_of_le h hda) hab)
          simp [hba, ha, hb]

/-- The running scan of the dominated blocks computes the earliest
candidate of minimal lifetime start among those qualifying against the
initial target. -/
theorem scanFold_eq (g : Graph) (f : Nat) (l : List Nat) (acc : Nat) :
    l.foldl
        (fun acc d =>
          if f < g.lifetimeStart d ∧ g.lifetimeStart d < g.lifetimeStart acc then d
          else acc)
        acc
      = (firstMinBy g.lifetimeStart (l.filter fun d =>
          decide (f < g.lifetimeStart d) &&
            decide (g.lifetimeStart d < g.lifetimeStart acc))).getD acc := by
  induction l generalizing acc with
  | nil => simp [firstMinBy]
  | cons d l ih =>
    rw [List.foldl_cons]
    by_cases hq : f < g.lifetimeStart d ∧ g.lifetimeStart d < g.lifetimeStart acc
    · rw [if_pos hq, ih d,
        List.filter_cons_of_pos (by simp [hq.1, hq.2]), firstMinBy_cons]
      have hfilter :
          (l.filter fun x =>
            decide (f < g.lifetimeStart x) &&
              decide (g.lifetimeStart x < g.lifetimeStart d))
            = ((l.filter fun x =>
                decide (f < g.lifetimeStart x) &&
                  decide (g.lifetimeStart x < g.lifetimeStart acc)).filter
                fun x => decide (g.lifetimeStart x < g.lifetimeStart d)) := by
        rw [List.filter_filter]
        apply List.filter_congr
        intro x _
        by_cases h2 : g.lifetimeStart x < g.lifetimeStart d
        · by_cases h1 : f < g.lifetimeStart x <;>
            simp [h1, h2, Nat.lt_trans h2 hq.2]
        · simp [h2]
      rw [hfilter, firstMinBy_filter_lt]
      rcases hF : (firstMinBy g.lifetimeStart (l.filter fun x =>
          decide (f < g.lifetimeStart x) &&
            decide (g.lifetimeStart x < g.lifetimeStart acc))) with _ | b
      · simp
      · by_cases hb : g.lifetimeStart b < g.lifetimeStart d <;> simp [hb]
    · rw [if_neg hq, ih acc,
        List.filter_cons_of_neg (by simpa using fun h1 h2 => hq ⟨h1, h2⟩)]

/-- The dominated-block scan equals its specification: among the
dominated blocks whose lifetime start lies strictly between `from` and
the target's start, the earliest one of minimal start. -/
theorem domScan_eq_spec (g : Graph) (f : Nat) (bf bt : Nat) :
    domScan g f bf bt = domScanSpec g f bf bt := by
  unfold domScan domScanSpec
  rcases g.dominatorOf bf with _ | dom
  · rfl
  · exact scanFold_eq g f (g.dominatedOf dom) bt

/-- The loop-hoisting walk equals its specification: the last header of
the outward chain that still starts strictly after the `from`-block. -/
theorem loopPromote_eq_takeWhile (g : Graph) (bf : Nat) (chain : List Nat) (bt : Nat) :
    loopPromote g bf bt chain =
      (chain.takeWhile fun h => decide (g.lifetimeStart bf < g.lifetimeStart h)).getLastD bt := by
  induction chain generalizing bt with
  | nil => simp [loopPromote]
  | cons h rest ih =>
    by_cases hh : g.lifetimeStart bf < g.lifetimeStart h
    · rw [show loopPromote g bf bt (h :: rest)
          = if g.lifetimeStart bf ≥ g.lifetimeStart h then bt
            else loopPromote g bf h rest from rfl,
        if_neg (by exact fun hge => Nat.lt_irrefl _ (Nat.lt_of_lt_of_le hh hge)), ih h,
        List.takeWhile_cons_of_pos (by simpa using hh), List.getLastD_cons]
    · rw [show loopPromote g bf bt (h :: rest)
          = if g.lifetimeStart bf ≥ g.lifetimeStart h then bt
            else loopPromote g bf h rest from rfl,
        if_pos (Nat.le_of_not_lt hh),
        List.takeWhile_cons_of_neg (by simpa using hh)]
      rfl

theorem splitBetweenPos_eq_spec (g : Graph) (bf bt : Nat) (f t : Nat) :
    splitBetweenPos g bf bt f t = splitBetweenPosSpec g bf bt f t := by
  by_cases h : bf = bt
  · simp [splitBetweenPos, splitBetweenPosSpec, h]
  · simp only [splitBetweenPos, splitBetweenPosSpec, if_neg h]
    rw [domScan_eq_spec, loopPromote_eq_takeWhile]
    rfl

/-- C5: `SplitBetween` follows the specified algorithm: it resolves the
blocks of `from` and `to`, delegates to `Split(interval, to)` when they
coincide, and otherwise splits at the lifetime start of the block
obtained by the dominated-block selection (smallest qualifying start,
earliest on ties) followed by the outward loop-header promotion — the
composition `splitBetweenPosSpec` written from the spec's wording. -/
theorem C5_SplitBetween_follows_algorithm (g : Graph) (st : Store) (i : Nat) (f t : Nat) :
    SplitBetween g st i f t =
      match g.blockFromPosition (f / 2), g.blockFromPosition (t / 2) with
      | some bf, some bt => some (Split st i (splitBetweenPosSpec g bf bt f t))
      | _, _ => none := by
  unfold SplitBetween
  rcases g.blockFromPosition (f / 2) with _ | bf <;>
    rcases g.blockFromPosition (t / 2) with _ | bt <;>
      simp [splitBetweenPos_eq_spec]

/-- The dominated-block scan keeps the candidate's lifetime start
strictly after `from` and no later than the initial target's bound. -/
theorem scanFold_bounds (g : Graph) (f t : Nat) (l : List Nat) :
    ∀ acc, f < g.lifetimeStart acc → g.lifetimeStart acc ≤ t →
      f < g.lifetimeStart (l.foldl
          (fun acc d =>
            if f < g.lifetimeStart d ∧ g.lifetimeStart d < g.lifetimeStart acc then d
            else acc) acc) ∧
        g.lifetimeStart (l.foldl
          (fun acc d =>
            if f < g.lifetimeStart d ∧ g.lifetimeStart d < g.lifetimeStart acc then d
            else acc) acc) ≤ t := by
  induction l with
  | nil => exact fun acc h1 h2 => ⟨h1, h2⟩
  | cons d l ih =>
    intro acc h1 h2
    rw [List.foldl_cons]
    by_cases hq : f < g.lifetimeStart d ∧ g.lifetimeStart d < g.lifetimeStart acc
    · rw [if_pos hq]
      exact ih d hq.1 (Nat.le_of_lt (Nat.lt_of_lt_of_le hq.2 h2))
    · rw [if_neg hq]
      exact ih acc h1 h2

theorem domScan_bounds (g : Graph) (f t : Nat) (bf bt : Nat)
    (h1 : f < g.lifetimeStart bt) (h2 : g.lifetimeStart bt ≤ t) :
    f < g.lifetimeStart (domScan g f bf bt) ∧ g.lifetimeStart (domScan g f bf bt) ≤ t := by
  unfold domScan
  rcases g.dominatorOf bf with _ | dom
  · exact ⟨h1, h2⟩
  · exact scanFold_bounds g f t (g.dominatedOf dom) bt h1 h2

/-- The loop-hoisting walk stays strictly after `from` (every promoted
header starts after the `from`-block, hence after `from`) and within the
bound every chain header respects. -/
theorem loopPromote_bounds (g : Graph) (bf f t : Nat)
    (hafter : ∀ b, g.lifetimeStart bf < g.lifetimeStart b → f < g.lifetimeStart b) :
    ∀ (chain : List Nat) (bt : Nat), f < g.lifetimeStart bt → g.lifetimeStart bt ≤ t →
      (∀ h ∈ chain, g.lifetimeStart h ≤ t) →
      f < g.lifetimeStart (loopPromote g bf bt chain) ∧
        g.lifetimeStart (loopPromote g bf bt chain) ≤ t := by
  intro chain
  induction chain with
  | nil => exact fun bt h1 h2 _ => ⟨h1, h2⟩
  | cons h rest ih =>
    intro bt h1 h2 hch
    by_cases hh : g.lifetimeStart bf ≥ g.lifetimeStart h
    · rw [show loopPromote g bf bt (h :: rest)
          = if g.lifetimeStart bf ≥ g.lifetimeStart h then bt
            else loopPromote g bf h rest from rfl, if_pos hh]
      exact ⟨h1, h2⟩
    · rw [show loopPromote g bf bt (h :: rest)
          = if g.lifetimeStart bf ≥ g.lifetimeStart h then bt
            else loopPromote g bf h rest from rfl, if_neg hh]
      have hbfh : g.lifetimeStart bf < g.lifetimeStart h := Nat.lt_of_not_le hh
      exact ih h (hafter h hbfh) (hch h (List.mem_cons_self h rest))
        (fun x hx => hch x (List.mem_cons_of_mem h hx))

/-- C4: on every call `SplitBetween(interval, from, to)` with
`from ≤ to`, under the coherence of the modelled liveness/CFG collaborator
(the `from`- and `to`-positions lie in their blocks: the `to`-block of a
distinct pair starts after `from` and no later than `to`; any block
starting after the `from`-block starts after `from`; loop headers start
no later than the blocks of their loops), the split position passed to
`Split` is never earlier than `from` and never later than `to`. -/
theorem C4_SplitBetween_position_in_range (g : Graph) (st : Store) (i f t : Nat)
    (bf bt : Nat)
    (hbfEq : g.blockFromPosition (f / 2) = some bf)
    (hbtEq : g.blockFromPosition (t / 2) = some bt)
    (hft : f ≤ t)
    (hdiff : bf ≠ bt → f < g.lifetimeStart bt ∧ g.lifetimeStart bt ≤ t)
    (hafter : ∀ b, g.lifetimeStart bf < g.lifetimeStart b → f < g.lifetimeStart b)
    (hloop : ∀ b h, h ∈ g.loopHeaders b → g.lifetimeStart h ≤ g.lifetimeStart b) :
    f ≤ splitBetweenPos g bf bt f t ∧ splitBetweenPos g bf bt f t ≤ t ∧
      SplitBetween g st i f t = some (Split st i (splitBetweenPos g bf bt f t)) := by
  have hmain : f ≤ splitBetweenPos g bf bt f t ∧ splitBetweenPos g bf bt f t ≤ t := by
    unfold splitBetweenPos
    by_cases h : bf = bt
    · rw [if_pos h]
      exact ⟨hft, Nat.le_refl t⟩
    · rw [if_neg h]
      have hbase := hdiff h
      have hbt1 := domScan_bounds g f t bf bt hbase.1 hbase.2
      have hbt2 := loopPromote_bounds g bf f t hafter
        (g.loopHeaders (domScan g f bf bt)) (domScan g f bf bt) hbt1.1 hbt1.2
        (fun x hx => Nat.le_trans (hloop (domScan g f bf bt) x hx) hbt1.2)
      exact ⟨Nat.le_of_lt hbt2.1, hbt2.2⟩
  refine ⟨hmain.1, hmain.2, ?_⟩
  unfold SplitBetween
  rw [hbfEq, hbtEq]

theorem C4_SplitBetween_position_in_range_witness :
    1 ≤ splitBetweenPos
        ⟨fun b => if b = 0 then 0 else 4, fun _ => none, fun _ => [], fun _ => [],
          fun p => if p < 2 then some 0 else some 1⟩ 0 1 1 5 ∧
      splitBetweenPos
        ⟨fun b => if b = 0 then 0 else 4, fun _ => none, fun _ => [], fun _ => [],
          fun p => if p < 2 then some 0 else some 1⟩ 0 1 1 5 ≤ 5 ∧
      SplitBetween
        ⟨fun b => if b = 0 then 0 else 4, fun _ => none, fun _ => [], fun _ => [],
          fun p => if p < 2 then some 0 else some 1⟩ [] 0 1 5
        = some (Split [] 0 (splitBetweenPos
            ⟨fun b => if b = 0 then 0 else 4, fun _ => none, fun _ => [], fun _ => [],
              fun p => if p < 2 then some 0 else some 1⟩ 0 1 1 5)) :=
  C4_SplitBetween_position_in_range
    ⟨fun b => if b = 0 then 0 else 4, fun _ => none, fun _ => [], fun _ => [],
      fun p => if p < 2 then some 0 else some 1⟩ [] 0 1 5 0 1
    (by decide) (by decide) (by decide)
    (fun _ => by refine ⟨?_, ?_⟩ <;> decide)
    (fun b hb => by
      by_cases h : b = 0
      · subst h; exact absurd hb (by decide)
      · simp [h])
    (fun b h hm => absurd hm (List.not_mem_nil h))

theorem tlInv_empty : tlInv emptyTl [] := by
  intro v p; simp [emptyTl]

theorem tlInv_congr (tl : Timelines) (S T : List (Nat × Nat))
    (h : tlInv tl S) (hiff : ∀ x, x ∈ S ↔ x ∈ T) : tlInv tl T := by
  intro v p
  rw [h v p]
  simp only [decide_eq_decide]
  exact hiff (v, p)

theorem setBit_inv (tl : Timelines) (S : List (Nat × Nat)) (v p : Nat)
    (h : tlInv tl S) : tlInv (setBit tl v p) (S ++ [(v, p)]) := by
  intro w q
  unfold setBit
  by_cases hwq : w = v ∧ q = p
  · rw [if_pos hwq]
    rcases hwq with ⟨hw, hq⟩
    subst hw; subst hq
    simp
  · rw [if_neg hwq, h w q]
    simp only [decide_eq_decide, List.mem_append, List.mem_singleton]
    constructor
    · exact fun hmem => Or.inl hmem
    · rintro (hmem | hmem)
      · exact hmem
      · exact absurd (Prod.mk.injEq .. ▸ hmem) (by simpa using hwq)

theorem markPositions_cons (ex : Bool) (tl : Timelines) (v p : Nat) (ps : List Nat) :
    markPositions ex tl v (p :: ps) =
      if tl v p then (if ex then markPositions ex tl v ps else .error p)
      else markPositions ex (setBit tl v p) v ps := rfl

theorem rangePositions_nodup (r : LiveRange) : (rangePositions r).Nodup := by
  unfold rangePositions
  exact List.nodup_range' _ _

/-- Marking a list of fresh positions (or any positions, when exempt)
succeeds and the timelines afterwards realize the enlarged mark set. -/
theorem markPositions_ok (ex : Bool) (ps : List Nat) :
    ∀ (tl : Timelines) (S : List (Nat × Nat)) (v : Nat),
      tlInv tl S → ps.Nodup →
      (ex = true ∨ ∀ p ∈ ps, (v, p) ∉ S) →
      ∃ tl1, markPositions ex tl v ps = .ok tl1 ∧
        tlInv tl1 (S ++ ps.map fun p => (v, p)) := by
  induction ps with
  | nil =>
    intro tl S v hinv _ _
    exact ⟨tl, rfl, by simpa using hinv⟩
  | cons p ps ih =>
    intro tl S v hinv hnd hfresh
    by_cases hS : (v, p) ∈ S
    · have hex : ex = true := by
        rcases hfresh with hex | hfresh
        · exact hex
        · exact absurd hS (hfresh p (List.mem_cons_self p ps))
      subst hex
      have htrue : tl v p = true := by rw [hinv v p]; simp [hS]
      obtain ⟨tl1, heq, hinv1⟩ := ih tl S v hinv hnd.of_cons (Or.inl rfl)
      refine ⟨tl1, ?_, ?_⟩
      · rw [markPositions_cons, if_pos htrue, if_pos rfl, heq]
      · refine tlInv_congr tl1 _ _ hinv1 ?_
        intro x
        simp only [List.mem_append, List.map_cons, List.mem_cons, List.mem_map]
        constructor
        · rintro (h | h)
          · exact Or.inl h
          · exact Or.inr (Or.inr h)
        · rintro (h | h | h)
          · exact Or.inl h
          · exact Or.inl (h ▸ hS)
          · exact Or.inr h
    · have hfalse : tl v p = false := by rw [hinv v p]; simp [hS]
      have hinv1 : tlInv (setBit tl v p) (S ++ [(v, p)]) := setBit_inv tl S v p hinv
      have hfresh1 : ex = true ∨ ∀ q ∈ ps, (v, q) ∉ S ++ [(v, p)] := by
        rcases hfresh with hex | hfresh
        · exact Or.inl hex
        · refine Or.inr fun q hq => ?_
          simp only [List.mem_append, List.mem_singleton]
          rintro (hmem | hmem)
          · exact hfresh q (List.mem_cons_of_mem p hq) hmem
          · have : q = p := by simpa using congrArg Prod.snd hmem
            exact (List.nodup_cons.mp hnd).1 (this ▸ hq)
      obtain ⟨tl1, heq, hinv2⟩ := ih (setBit tl v p) (S ++ [(v, p)]) v hinv1 hnd.of_cons hfresh1
      refine ⟨tl1, ?_, ?_⟩
      · rw [markPositions_cons, if_neg (by simp [hfalse]), heq]
      · have : S ++ [(v, p)] ++ ps.map (fun q => (v, q))
            = S ++ ((p :: ps).map fun q => (v, q)) := by
          rw [List.append_assoc, List.singleton_append, List.map_cons]
        exact this ▸ hinv2

/-- Marking in unexempted mode fails on a list containing an
already-set position. -/
theorem markPositions_error (ps : List Nat) :
    ∀ (tl : Timelines) (S : List (Nat × Nat)) (v : Nat),
      tlInv tl S → (∃ p ∈ ps, (v, p) ∈ S) →
      ∃ j, markPositions false tl v ps = .error j := by
  induction ps with
  | nil =>
    intro tl S v _ h
    simp at h
  | cons p ps ih =>
    intro tl S v hinv hhit
    by_cases hS : (v, p) ∈ S
    · have htrue : tl v p = true := by rw [hinv v p]; simp [hS]
      exact ⟨p, by rw [markPositions_cons]; simp [htrue]⟩
    · have hfalse : tl v p = false := by rw [hinv v p]; simp [hS]
      have hhit1 : ∃ q ∈ ps, (v, q) ∈ S ++ [(v, p)] := by
        rcases hhit with ⟨q, hq, hmem⟩
        rcases List.mem_cons.mp hq with rfl | hq
        · exact absurd hmem hS
        · exact ⟨q, hq, List.mem_append_left _ hmem⟩
      obtain ⟨j, hj⟩ := ih (setBit tl v p) (S ++ [(v, p)]) v (setBit_inv tl S v p hinv) hhit1
      exact ⟨j, by rw [markPositions_cons]; simp [hfalse, hj]⟩

theorem processRegs_cons (cfg : VConfig) (it : VItem) (ex : Bool) (tl : Timelines)
    (r : Nat) (rest : List Nat) :
    processRegs cfg it ex tl (r :: rest) =
      if cfg.debugBuild && cfg.log_fatal_on_failure && !it.sib.isFixed
          && !cfg.hasAllocatedRegister r then
        .error .checkFail
      else
        match markPositions ex tl r (rangePositions it.range) with
        | .ok tl1 => processRegs cfg it ex tl1 rest
        | .error j =>
          .error (if cfg.log_fatal_on_failure then .fatalRegConflict j r else .ret false) := rfl

/-- The register loop succeeds on fresh (or exempted) marks in non-fatal
mode, realizing all its marks. -/
theorem processRegs_ok (cfg : VConfig) (it : VItem) (ex : Bool)
    (hf : cfg.log_fatal_on_failure = false) (regs : List Nat) :
    ∀ (tl : Timelines) (S : List (Nat × Nat)),
      tlInv tl S → regs.Nodup →
      (ex = true ∨ ∀ m ∈ regs.flatMap fun r =>
          (rangePositions it.range).map fun p => (r, p), m ∉ S) →
      ∃ tl1, processRegs cfg it ex tl regs = .ok tl1 ∧
        tlInv tl1 (S ++ regs.flatMap fun r =>
          (rangePositions it.range).map fun p => (r, p)) := by
  induction regs with
  | nil =>
    intro tl S hinv _ _
    exact ⟨tl, rfl, by simpa using hinv⟩
  | cons r rest ih =>
    intro tl S hinv hnd hfresh
    have hfreshHead : ex = true ∨ ∀ p ∈ rangePositions it.range, (r, p) ∉ S := by
      rcases hfresh with hex | hfresh
      · exact Or.inl hex
      · refine Or.inr fun p hp => hfresh (r, p) ?_
        rw [List.flatMap_cons, List.mem_append]
        exact Or.inl (List.mem_map.mpr ⟨p, hp, rfl⟩)
    obtain ⟨tl1, heq1, hinv1⟩ :=
      markPositions_ok ex (rangePositions it.range) tl S r hinv
        (rangePositions_nodup it.range) hfreshHead
    have hfresh1 : ex = true ∨ ∀ m ∈ rest.flatMap fun r' =>
        (rangePositions it.range).map fun p => (r', p),
        m ∉ S ++ (rangePositions it.range).map fun p => (r, p) := by
      rcases hfresh with hex | hfresh
      · exact Or.inl hex
      · refine Or.inr fun m hm => ?_
        rcases List.mem_flatMap.mp hm with ⟨r', hr', hmem⟩
        rcases List.mem_map.mp hmem with ⟨p, hp, rfl⟩
        rw [List.mem_append]
        rintro (hmS | hmHead)
        · exact hfresh (r', p)
            (List.mem_flatMap.mpr ⟨r', List.mem_cons_of_mem r hr',
              List.mem_map.mpr ⟨p, hp, rfl⟩⟩) hmS
        · rcases List.mem_map.mp hmHead with ⟨q, _, hpq⟩
          have : r = r' := by simpa using congrArg Prod.fst hpq
          exact (List.nodup_cons.mp hnd).1 (this ▸ hr')
    obtain ⟨tl2, heq2, hinv2⟩ := ih tl1 _ hinv1 hnd.of_cons hfresh1
    refine ⟨tl2, ?_, ?_⟩
    · rw [processRegs_cons, if_neg (by simp [hf]), heq1]
      exact heq2
    · rw [List.flatMap_cons, ← List.append_assoc]
      exact hinv2

/-- The register loop fails with a plain boolean in non-fatal,
unexempted mode as soon as some mark is already set. -/
theorem processRegs_error (cfg : VConfig) (it : VItem)
    (hf : cfg.log_fatal_on_failure = false) (regs : List Nat) :
    ∀ (tl : Timelines) (S : List (Nat × Nat)),
      tlInv tl S → regs.Nodup →
      (∃ m ∈ regs.flatMap fun r =>
          (rangePositions it.range).map fun p => (r, p), m ∈ S) →
      processRegs cfg it false tl regs = .error (.ret false) := by
  induction regs with
  | nil =>
    intro tl S _ _ h
    simp at h
  | cons r rest ih =>
    intro tl S hinv hnd hhit
    by_cases hhead : ∃ p ∈ rangePositions it.range, (r, p) ∈ S
    · obtain ⟨j, hj⟩ := markPositions_error (rangePositions it.range) tl S r hinv hhead
      rw [processRegs_cons, if_neg (by simp [hf]), hj]
      simp [hf]
    · have hfreshHead : (false : Bool) = true ∨
          ∀ p ∈ rangePositions it.range, (r, p) ∉ S :=
        Or.inr fun p hp hmem => hhead ⟨p, hp, hmem⟩
      obtain ⟨tl1, heq1, hinv1⟩ :=
        markPositions_ok false (rangePositions it.range) tl S r hinv
          (rangePositions_nodup it.range) hfreshHead
      have hhit1 : ∃ m ∈ rest.flatMap fun r' =>
          (rangePositions it.range).map fun p => (r', p),
          m ∈ S ++ (rangePositions it.range).map fun p => (r, p) := by
        rcases hhit with ⟨m, hm, hmS⟩
        rw [List.flatMap_cons, List.mem_append] at hm
        rcases hm with hm | hm
        · rcases List.mem_map.mp hm with ⟨p, hp, rfl⟩
          exact absurd ⟨p, hp, hmS⟩ hhead
        · exact ⟨m, hm, List.mem_append_left _ hmS⟩
      rw [processRegs_cons, if_neg (by simp [hf]), heq1]
      exact ih tl1 _ hinv1 hnd.of_cons hhit1

/-- The spill-slot check succeeds on fresh slot marks, realizing them. -/
theorem processSpill_ok (cfg : VConfig) (tl : Timelines) (it : VItem)
    (S : List (Nat × Nat)) (hinv : tlInv tl S)
    (hfresh : ∀ m ∈ slotMarks cfg it, m ∉ S) :
    ∃ tl1, processSpill cfg tl it = .ok tl1 ∧ tlInv tl1 (S ++ slotMarks cfg it) := by
  rcases hslot : it.spillSlot with _ | slot
  · refine ⟨tl, by simp [processSpill, hslot], ?_⟩
    have : slotMarks cfg it = [] := by simp [slotMarks, hslot]
    rw [this]
    simpa using hinv
  · by_cases hdef : it.defIsParamOrCurrentMethod = true
    · refine ⟨tl, by simp [processSpill, hslot, hdef], ?_⟩
      have : slotMarks cfg it = [] := by simp [slotMarks, hslot, hdef]
      rw [this]
      simpa using hinv
    · have hmarks : slotMarks cfg it
          = (rangePositions it.range).map fun p => (slotIndex cfg slot, p) := by
        simp [slotMarks, hslot, hdef]
      obtain ⟨tl1, heq, hinv1⟩ :=
        markPositions_ok false (rangePositions it.range) tl S (slotIndex cfg slot) hinv
          (rangePositions_nodup it.range)
          (Or.inr fun p hp => hfresh _ (hmarks ▸ List.mem_map.mpr ⟨p, hp, rfl⟩))
      exact ⟨tl1, by simp [processSpill, hslot, hdef, heq], hmarks ▸ hinv1⟩

/-- The spill-slot check fails with a plain boolean in non-fatal mode as
soon as some slot mark is already set. -/
theorem processSpill_error (cfg : VConfig) (tl : Timelines) (it : VItem)
    (S : List (Nat × Nat)) (hf : cfg.log_fatal_on_failure = false)
    (hinv : tlInv tl S) (hhit : ∃ m ∈ slotMarks cfg it, m ∈ S) :
    processSpill cfg tl it = .error (.ret false) := by
  rcases hslot : it.spillSlot with _ | slot
  · rcases hhit with ⟨m, hm, _⟩
    simp [slotMarks, hslot] at hm
  · by_cases hdef : it.defIsParamOrCurrentMethod = true
    · rcases hhit with ⟨m, hm, _⟩
      simp [slotMarks, hslot, hdef] at hm
    · have hmarks : slotMarks cfg it
          = (rangePositions it.range).map fun p => (slotIndex cfg slot, p) := by
        simp [slotMarks, hslot, hdef]
      have hhit1 : ∃ p ∈ rangePositions it.range, (slotIndex cfg slot, p) ∈ S := by
        rcases hhit with ⟨m, hm, hmS⟩
        rw [hmarks] at hm
        rcases List.mem_map.mp hm with ⟨p, hp, rfl⟩
        exact ⟨p, hp, hmS⟩
      obtain ⟨j, hj⟩ :=
        markPositions_error (rangePositions it.range) tl S (slotIndex cfg slot) hinv hhit1
      simp [processSpill, hslot, hdef, hj, hf]

theorem processItem_eq (cfg : VConfig) (tl : Timelines) (it : VItem) :
    processItem cfg tl it =
      match processSpill cfg tl it with
      | .error r => .error r
      | .ok tl1 =>
        match get_register_mask cfg.number_of_registers cfg.registers_blocked_for_call
            cfg.liveness it.sib with
        | none => .error .checkFail
        | some m => processRegs cfg it (itemExempt it) tl1 (maskBits m) := rfl

theorem maskBits_nodup (m : Nat) : (maskBits m).Nodup :=
  (List.nodup_range 32).filter _

theorem regMarks_eq (cfg : VConfig) (it : VItem) (m : Nat)
    (hm : get_register_mask cfg.number_of_registers cfg.registers_blocked_for_call
      cfg.liveness it.sib = some m) :
    regMarks cfg it = (maskBits m).flatMap fun r =>
      (rangePositions it.range).map fun p => (r, p) := by
  simp [regMarks, itemMask, hm]

/-- Processing a conflict-free item in non-fatal mode succeeds and
realizes exactly its marks on top of the previous ones. -/
theorem processItem_ok (cfg : VConfig) (tl : Timelines) (it : VItem)
    (S : List (Nat × Nat)) (hf : cfg.log_fatal_on_failure = false)
    (hm : (get_register_mask cfg.number_of_registers cfg.registers_blocked_for_call
      cfg.liveness it.sib).isSome)
    (hinv : tlInv tl S) (hfree : itemConflictFree cfg S it) :
    ∃ tl1, processItem cfg tl it = .ok tl1 ∧ tlInv tl1 (S ++ marks cfg it) := by
  obtain ⟨tl1, heq1, hinv1⟩ := processSpill_ok cfg tl it S hinv hfree.1
  obtain ⟨m, hmEq⟩ := Option.isSome_iff_exists.mp hm
  have hregs : itemExempt it = true ∨
      ∀ mk ∈ (maskBits m).flatMap fun r =>
        (rangePositions it.range).map fun p => (r, p),
        mk ∉ S ++ slotMarks cfg it := by
    by_cases hex : itemExempt it = true
    · exact Or.inl hex
    · refine Or.inr fun mk hmk => ?_
      have hmk' : mk ∈ regMarks cfg it := (regMarks_eq cfg it m hmEq) ▸ hmk
      have := hfree.2 (by simpa using hex) mk hmk'
      rw [List.mem_append]
      rintro (h | h)
      · exact this.1 h
      · exact this.2 h
  obtain ⟨tl2, heq2, hinv2⟩ :=
    processRegs_ok cfg it (itemExempt it) hf (maskBits m) tl1 _ hinv1
      (maskBits_nodup m) hregs
  refine ⟨tl2, ?_, ?_⟩
  · rw [processItem_eq, heq1, hmEq]
    exact heq2
  · rw [show marks cfg it = slotMarks cfg it ++ regMarks cfg it from rfl,
      regMarks_eq cfg it m hmEq, ← List.append_assoc]
    exact hinv2

/-- Processing a conflicting item in non-fatal mode returns the boolean
failure. -/
theorem processItem_error (cfg : VConfig) (tl : Timelines) (it : VItem)
    (S : List (Nat × Nat)) (hf : cfg.log_fatal_on_failure = false)
    (hm : (get_register_mask cfg.number_of_registers cfg.registers_blocked_for_call
      cfg.liveness it.sib).isSome)
    (hinv : tlInv tl S) (hnotfree : ¬ itemConflictFree cfg S it) :
    processItem cfg tl it = .error (.ret false) := by
  by_cases hslot : ∀ mk ∈ slotMarks cfg it, mk ∉ S
  · obtain ⟨tl1, heq1, hinv1⟩ := processSpill_ok cfg tl it S hinv hslot
    obtain ⟨m, hmEq⟩ := Option.isSome_iff_exists.mp hm
    have hbad : ¬ (itemExempt it = false →
        ∀ mk ∈ regMarks cfg it, mk ∉ S ∧ mk ∉ slotMarks cfg it) :=
      fun h => hnotfree ⟨hslot, h⟩
    push_neg at hbad
    rcases hbad with ⟨hexF, mk, hmk, hcase⟩
    have hhit : ∃ mk ∈ (maskBits m).flatMap fun r =>
        (rangePositions it.range).map fun p => (r, p),
        mk ∈ S ++ slotMarks cfg it := by
      refine ⟨mk, (regMarks_eq cfg it m hmEq) ▸ hmk, ?_⟩
      rw [List.mem_append]
      by_cases h1 : mk ∈ S
      · exact Or.inl h1
      · exact Or.inr (hcase h1)
    rw [processItem_eq, heq1, hmEq, hexF]
    exact processRegs_error cfg it hf (maskBits m) tl1 _ hinv1 (maskBits_nodup m) hhit
  · push_neg at hslot
    rcases hslot with ⟨mk, hmk, hmkS⟩
    rw [processItem_eq, processSpill_error cfg tl it S hf hinv ⟨mk, hmk, hmkS⟩]

theorem runItems_cons (cfg : VConfig) (tl : Timelines) (it : VItem) (rest : List VItem) :
    runItems cfg tl (it :: rest) =
      match processItem cfg tl it with
      | .error r => r
      | .ok tl1 => runItems cfg tl1 rest := rfl

/-- A conflict-free item list validates successfully in non-fatal mode. -/
theorem runItems_ret_true (cfg : VConfig) (hf : cfg.log_fatal_on_failure = false) :
    ∀ (items : List VItem) (tl : Timelines) (S : List (Nat × Nat)),
      tlInv tl S →
      (∀ it ∈ items, (get_register_mask cfg.number_of_registers
        cfg.registers_blocked_for_call cfg.liveness it.sib).isSome) →
      conflictFreeList cfg S items →
      runItems cfg tl items = .ret true := by
  intro items
  induction items with
  | nil => intro tl S _ _ _; rfl
  | cons it rest ih =>
    intro tl S hinv hmask hfree
    obtain ⟨tl1, heq, hinv1⟩ :=
      processItem_ok cfg tl it S hf (hmask it (List.mem_cons_self it rest)) hinv hfree.1
    rw [runItems_cons, heq]
    exact ih tl1 _ hinv1 (fun x hx => hmask x (List.mem_cons_of_mem it hx)) hfree.2

/-- A conflicting item list validates to the boolean failure in
non-fatal mode. -/
theorem runItems_ret_false (cfg : VConfig) (hf : cfg.log_fatal_on_failure = false) :
    ∀ (items : List VItem) (tl : Timelines) (S : List (Nat × Nat)),
      tlInv tl S →
      (∀ it ∈ items, (get_register_mask cfg.number_of_registers
        cfg.registers_blocked_for_call cfg.liveness it.sib).isSome) →
      ¬ conflictFreeList cfg S items →
      runItems cfg tl items = .ret false := by
  intro items
  induction items with
  | nil => intro tl S _ _ h; exact absurd trivial h
  | cons it rest ih =>
    intro tl S hinv hmask hnot
    by_cases hfree : itemConflictFree cfg S it
    · obtain ⟨tl1, heq, hinv1⟩ :=
        processItem_ok cfg tl it S hf (hmask it (List.mem_cons_self it rest)) hinv hfree
      rw [runItems_cons, heq]
      exact ih tl1 _ hinv1 (fun x hx => hmask x (List.mem_cons_of_mem it hx))
        (fun hrest => hnot ⟨hfree, hrest⟩)
    · rw [runItems_cons,
        processItem_error cfg tl it S hf (hmask it (List.mem_cons_self it rest)) hinv hfree]

/-- A globally duplicate-free mark multiset processes conflict-free. -/
theorem nodup_conflictFreeList (cfg : VConfig) :
    ∀ (items : List VItem) (S : List (Nat × Nat)),
      (S ++ items.flatMap (marks cfg)).Nodup →
      conflictFreeList cfg S items := by
  intro items
  induction items with
  | nil => intro S _; trivial
  | cons it rest ih =>
    intro S h
    rw [List.flatMap_cons] at h
    have hassoc : (S ++ (marks cfg it ++ rest.flatMap (marks cfg))).Nodup := h
    have hdisj : S.Disjoint (marks cfg it ++ rest.flatMap (marks cfg)) :=
      List.disjoint_of_nodup_append hassoc
    have hrightNd : (marks cfg it ++ rest.flatMap (marks cfg)).Nodup :=
      hassoc.of_append_right
    have hmarksDisj : (marks cfg it).Disjoint (rest.flatMap (marks cfg)) :=
      List.disjoint_of_nodup_append hrightNd
    have hmarksNd : (marks cfg it).Nodup := hrightNd.of_append_left
    have hslotRegDisj : (slotMarks cfg it).Disjoint (regMarks cfg it) :=
      List.disjoint_of_nodup_append hmarksNd
    constructor
    · constructor
      · intro mk hmk hmkS
        exact hdisj hmkS (List.mem_append_left _ (List.mem_append_left _ hmk))
      · intro _ mk hmk
        refine ⟨fun hmkS => hdisj hmkS
          (List.mem_append_left _ (List.mem_append_right _ hmk)), ?_⟩
        exact fun hs => hslotRegDisj hs hmk
    · apply ih
      rw [← List.append_assoc] at hassoc
      exact hassoc

/-- A conflict-free run is conflict-free at every index, against the
marks accumulated by the preceding items. -/
theorem conflictFreeList_index (cfg : VConfig) :
    ∀ (items : List VItem) (S : List (Nat × Nat)),
      conflictFreeList cfg S items →
      ∀ j, j < items.length →
        itemConflictFree cfg (S ++ (items.take j).flatMap (marks cfg))
          (items.getD j default) := by
  intro items
  induction items with
  | nil => intro S _ j hj; exact absurd hj (Nat.not_lt_zero j)
  | cons it rest ih =>
    intro S h j hj
    cases j with
    | zero =>
      simpa using h.1
    | succ j =>
      have := ih (S ++ marks cfg it) h.2 j (Nat.lt_of_succ_lt_succ hj)
      rw [List.take_succ_cons, List.flatMap_cons, ← List.append_assoc, List.getD_cons_succ]
      exact this

/-- Conversely, index-wise conflict freedom yields a conflict-free run. -/
theorem index_conflictFreeList (cfg : VConfig) :
    ∀ (items : List VItem) (S : List (Nat × Nat)),
      (∀ j, j < items.length →
        itemConflictFree cfg (S ++ (items.take j).flatMap (marks cfg))
          (items.getD j default)) →
      conflictFreeList cfg S items := by
  intro items
  induction items with
  | nil => intro S _; trivial
  | cons it rest ih =>
    intro S h
    constructor
    · simpa using h 0 (Nat.succ_pos _)
    · apply ih
      intro j hj
      have := h (j + 1) (Nat.succ_lt_succ hj)
      rw [List.take_succ_cons, List.flatMap_cons, ← List.append_assoc,
        List.getD_cons_succ] at this
      exact this

/-- Membership in the marks of a prefix, index-wise. -/
theorem mem_take_flatMap (cfg : VConfig) :
    ∀ (items : List VItem) (j : Nat) (m : Nat × Nat),
      m ∈ (items.take j).flatMap (marks cfg) ↔
        ∃ i, i < j ∧ i < items.length ∧ m ∈ marks cfg (items.getD i default) := by
  intro items
  induction items with
  | nil =>
    intro j m
    simp
  | cons it rest ih =>
    intro j m
    cases j with
    | zero => simp
    | succ j =>
      rw [List.take_succ_cons, List.flatMap_cons, List.mem_append, ih j m]
      constructor
      · rintro (h | ⟨i, h1, h2, h3⟩)
        · exact ⟨0, Nat.succ_pos _, Nat.succ_pos _, by simpa using h⟩
        · exact ⟨i + 1, Nat.succ_lt_succ h1, Nat.succ_lt_succ h2, by simpa using h3⟩
      · rintro ⟨i, h1, h2, h3⟩
        cases i with
        | zero => exact Or.inl (by simpa using h3)
        | succ i =>
          exact Or.inr ⟨i, Nat.lt_of_succ_lt_succ h1, Nat.lt_of_succ_lt_succ h2,
            by simpa using h3⟩

theorem processSpill_or (cfg : VConfig) (tl : Timelines) (it : VItem)
    (hf : cfg.log_fatal_on_failure = false) :
    (∃ tl1, processSpill cfg tl it = .ok tl1) ∨
      processSpill cfg tl it = .error (.ret false) := by
  rcases hslot : it.spillSlot with _ | slot
  · exact Or.inl ⟨tl, by simp [processSpill, hslot]⟩
  · by_cases hdef : it.defIsParamOrCurrentMethod = true
    · exact Or.inl ⟨tl, by simp [processSpill, hslot, hdef]⟩
    · rcases hmk : markPositions false tl (slotIndex cfg slot) (rangePositions it.range)
        with j | tl1
      · exact Or.inr (by simp [processSpill, hslot, hdef, hmk, hf])
      · exact Or.inl ⟨tl1, by simp [processSpill, hslot, hdef, hmk]⟩

theorem processRegs_or (cfg : VConfig) (it : VItem) (ex : Bool)
    (hf : cfg.log_fatal_on_failure = false) :
    ∀ (regs : List Nat) (tl : Timelines),
      (∃ tl1, processRegs cfg it ex tl regs = .ok tl1) ∨
        processRegs cfg it ex tl regs = .error (.ret false) := by
  intro regs
  induction regs with
  | nil => intro tl; exact Or.inl ⟨tl, rfl⟩
  | cons r rest ih =>
    intro tl
    rcases hmk : markPositions ex tl r (rangePositions it.range) with j | tl1
    · refine Or.inr ?_
      rw [processRegs_cons, if_neg (by simp [hf]), hmk]
      simp [hf]
    · rcases ih tl1 with ⟨tl2, h2⟩ | h2
      · exact Or.inl ⟨tl2, by rw [processRegs_cons, if_neg (by simp [hf]), hmk]; exact h2⟩
      · exact Or.inr (by rw [processRegs_cons, if_neg (by simp [hf]), hmk]; exact h2)

theorem processItem_or (cfg : VConfig) (tl : Timelines) (it : VItem)
    (hf : cfg.log_fatal_on_failure = false)
    (hm : (get_register_mask cfg.number_of_registers cfg.registers_blocked_for_call
      cfg.liveness it.sib).isSome) :
    (∃ tl1, processItem cfg tl it = .ok tl1) ∨
      processItem cfg tl it = .error (.ret false) := by
  obtain ⟨m, hmEq⟩ := Option.isSome_iff_exists.mp hm
  rcases processSpill_or cfg tl it hf with ⟨tl1, h1⟩ | h1
  · rcases processRegs_or cfg it (itemExempt it) hf (maskBits m) tl1 with ⟨tl2, h2⟩ | h2
    · exact Or.inl ⟨tl2, by rw [processItem_eq, h1, hmEq]; exact h2⟩
    · exact Or.inr (by rw [processItem_eq, h1, hmEq]; exact h2)
  · exact Or.inr (by rw [processItem_eq, h1])

/-- In non-fatal mode, a run whose items all have well-defined masks
returns a plain boolean. -/
theorem runItems_ret_or (cfg : VConfig) (hf : cfg.log_fatal_on_failure = false) :
    ∀ (items : List VItem) (tl : Timelines),
      (∀ it ∈ items, (get_register_mask cfg.number_of_registers
        cfg.registers_blocked_for_call cfg.liveness it.sib).isSome) →
      ∃ b, runItems cfg tl items = .ret b := by
  intro items
  induction items with
  | nil => intro tl _; exact ⟨true, rfl⟩
  | cons it rest ih =>
    intro tl hmask
    rcases processItem_or cfg tl it hf (hmask it (List.mem_cons_self it rest))
      with ⟨tl1, h1⟩ | h1
    · rw [runItems_cons, h1]
      exact ih tl1 fun x hx => hmask x (List.mem_cons_of_mem it hx)
    · exact ⟨false, by rw [runItems_cons, h1]⟩

/-- In non-fatal mode, a run reaching an item whose mask computation
`CHECK`-fails (after a conflict-free prefix) aborts with the check
failure. -/
theorem runItems_checkFail (cfg : VConfig) (hf : cfg.log_fatal_on_failure = false) :
    ∀ (items : List VItem) (k : Nat) (tl : Timelines) (S : List (Nat × Nat)),
      tlInv tl S → k < items.length →
      conflictFreeList cfg S (items.take (k + 1)) →
      (∀ j, j < k → (get_register_mask cfg.number_of_registers
        cfg.registers_blocked_for_call cfg.liveness
        (items.getD j default).sib).isSome) →
      get_register_mask cfg.number_of_registers cfg.registers_blocked_for_call
        cfg.liveness (items.getD k default).sib = none →
      runItems cfg tl items = .checkFail := by
  intro items
  induction items with
  | nil => intro k tl S _ hk; exact absurd hk (Nat.not_lt_zero k)
  | cons it rest ih =>
    intro k tl S hinv hk hfree hmask hnone
    cases k with
    | zero =>
      rw [List.getD_cons_zero] at hnone
      have hfree0 : itemConflictFree cfg S it := by
        rw [List.take_succ_cons] at hfree
        exact hfree.1
      obtain ⟨tl1, heq1, _⟩ := processSpill_ok cfg tl it S hinv hfree0.1
      rw [runItems_cons, processItem_eq, heq1, hnone]
    | succ k =>
      rw [List.take_succ_cons] at hfree
      have hm0 : (get_register_mask cfg.number_of_registers
          cfg.registers_blocked_for_call cfg.liveness it.sib).isSome := by
        have := hmask 0 (Nat.succ_pos k)
        rwa [List.getD_cons_zero] at this
      obtain ⟨tl1, heq, hinv1⟩ := processItem_ok cfg tl it S hf hm0 hinv hfree.1
      rw [runItems_cons, heq]
      refine ih k tl1 (S ++ marks cfg it) hinv1 (Nat.lt_of_succ_lt_succ hk) hfree.2
        (fun j hj => ?_) ?_
      · have := hmask (j + 1) (Nat.succ_lt_succ hj)
        rwa [List.getD_cons_succ] at this
      · rwa [List.getD_cons_succ] at hnone

/-- With a non-null liveness pointer the static mask computation never
aborts. -/
theorem get_register_mask_isSome (n b : Nat) (l : Nat → Bool) (iv : LiveInterval) :
    (get_register_mask n b (some l) iv).isSome := by
  rcases h : iv.register with _ | r
  · cases hfx : iv.isFixed <;> simp [get_register_mask, h, hfx]
  · simp [get_register_mask, h]

/-- With a null liveness pointer the static mask computation aborts
exactly on fixed intervals without an assigned register. -/
theorem get_register_mask_none_char (n b : Nat) (iv : LiveInterval) :
    get_register_mask n b none iv = none ↔
      (iv.register = none ∧ iv.isFixed = true) := by
  rcases h : iv.register with _ | r
  · cases hfx : iv.isFixed <;> simp [get_register_mask, h, hfx]
  · simp [get_register_mask, h]

/-- The static mask computation cannot abort on an interval that has a
register or is not fixed, whatever the liveness pointer. -/
theorem get_register_mask_isSome_of_not_required (n b : Nat) (lv : Option (Nat → Bool))
    (iv : LiveInterval) (h : iv.register.isSome ∨ iv.isFixed = false) :
    (get_register_mask n b lv iv).isSome := by
  rcases h with h | h
  · rcases Option.isSome_iff_exists.mp h with ⟨r, hr⟩
    simp [get_register_mask, hr]
  · rcases hrg : iv.register with _ | r
    · simp [get_register_mask, hrg, h]
    · simp [get_register_mask, hrg]

/-- The slot mark of a covered position, for a non-exempt item with an
assigned slot. -/
theorem slotMarks_mem (cfg : VConfig) (it : VItem) (s p : Nat)
    (hs : it.spillSlot = some s) (hd : it.defIsParamOrCurrentMethod = false)
    (h1 : it.range.start ≤ p) (h2 : p < it.range.«end») :
    (slotIndex cfg s, p) ∈ slotMarks cfg it := by
  have hmarks : slotMarks cfg it
      = (rangePositions it.range).map fun q => (slotIndex cfg s, q) := by
    simp [slotMarks, hs, hd]
  rw [hmarks]
  refine List.mem_map.mpr ⟨p, ?_, rfl⟩
  unfold rangePositions
  exact List.mem_range'_1.mpr ⟨h1, by omega⟩

/-- Every item of `allItems` carries a sibling of one of the chains. -/
theorem allItems_sib_mem (cs : List IntervalChain) (it : VItem)
    (h : it ∈ allItems cs) : ∃ c ∈ cs, it.sib ∈ c.siblings := by
  rcases List.mem_flatMap.mp h with ⟨c, hc, hit⟩
  rcases List.mem_flatMap.mp hit with ⟨s, hs, hmap⟩
  rcases List.mem_map.mp hmap with ⟨r, _, rfl⟩
  exact ⟨c, hc, hs⟩

/-- C1: in non-fatal mode with a liveness analysis, `ValidateIntervals`
(1) succeeds whenever the register/slot marks of all ranges are pairwise
disjoint; (2) fails with `false` whenever two ranges' register masks
share a register over overlapping positions and the later-processed one
is not a valid same-as-input use; and (3) still succeeds when every such
overlap is exempted by the same-as-input flags. -/
theorem C1_ValidateIntervals_conflicts (chains : List IntervalChain)
    (nspill nout nregs : Nat) (csave halloc : Nat → Bool) (l : Nat → Bool)
    (debug : Bool) :
    (((allItems chains).flatMap
        (marks (mkVConfig nregs csave nout (some l) debug halloc false))).Nodup →
      ValidateIntervals chains nspill nout nregs csave halloc (some l) debug false
        = .ret true) ∧
    (∀ i j : Nat, i < j → j < (allItems chains).length →
      ∀ r p : Nat,
        (r, p) ∈ regMarks (mkVConfig nregs csave nout (some l) debug halloc false)
          ((allItems chains).getD i default) →
        (r, p) ∈ regMarks (mkVConfig nregs csave nout (some l) debug halloc false)
          ((allItems chains).getD j default) →
        itemExempt ((allItems chains).getD j default) = false →
        ValidateIntervals chains nspill nout nregs csave halloc (some l) debug false
          = .ret false) ∧
    ((∀ j, j < (allItems chains).length →
        (∀ m ∈ slotMarks (mkVConfig nregs csave nout (some l) debug halloc false)
            ((allItems chains).getD j default),
          ∀ i, i < j →
            m ∉ marks (mkVConfig nregs csave nout (some l) debug halloc false)
              ((allItems chains).getD i default)) ∧
        (itemExempt ((allItems chains).getD j default) = false →
          ∀ m ∈ regMarks (mkVConfig nregs csave nout (some l) debug halloc false)
              ((allItems chains).getD j default),
            m ∉ slotMarks (mkVConfig nregs csave nout (some l) debug halloc false)
              ((allItems chains).getD j default) ∧
            ∀ i, i < j →
              m ∉ marks (mkVConfig nregs csave nout (some l) debug halloc false)
                ((allItems chains).getD i default))) →
      ValidateIntervals chains nspill nout nregs csave halloc (some l) debug false
        = .ret true) := by
  refine ⟨?_, ?_, ?_⟩
  · intro hnd
    show runItems (mkVConfig nregs csave nout (some l) debug halloc false)
      emptyTl (allItems chains) = .ret true
    exact runItems_ret_true _ rfl (allItems chains) emptyTl [] tlInv_empty
      (fun it _ => get_register_mask_isSome _ _ l it.sib)
      (nodup_conflictFreeList _ (allItems chains) [] (by simpa using hnd))
  · intro i j hij hj r p hmi hmj hex
    show runItems (mkVConfig nregs csave nout (some l) debug halloc false)
      emptyTl (allItems chains) = .ret false
    refine runItems_ret_false _ rfl (allItems chains) emptyTl [] tlInv_empty
      (fun it _ => get_register_mask_isSome _ _ l it.sib) ?_
    intro hcf
    have hfree := conflictFreeList_index _ (allItems chains) [] hcf j hj
    have h2 := hfree.2 hex (r, p) hmj
    refine h2.1 ?_
    rw [List.nil_append]
    exact (mem_take_flatMap _ (allItems chains) j (r, p)).mpr
      ⟨i, hij, Nat.lt_trans hij hj, List.mem_append_right _ hmi⟩
  · intro hcond
    show runItems (mkVConfig nregs csave nout (some l) debug halloc false)
      emptyTl (allItems chains) = .ret true
    refine runItems_ret_true _ rfl (allItems chains) emptyTl [] tlInv_empty
      (fun it _ => get_register_mask_isSome _ _ l it.sib) ?_
    refine index_conflictFreeList _ (allItems chains) [] fun j hj => ⟨?_, ?_⟩
    · intro m hm hmem
      rw [List.nil_append] at hmem
      rcases (mem_take_flatMap _ (allItems chains) j m).mp hmem with ⟨i, hi, _, hmarks⟩
      exact (hcond j hj).1 m hm i hi hmarks
    · intro hex m hm
      refine ⟨fun hmem => ?_, ((hcond j hj).2 hex m hm).1⟩
      rw [List.nil_append] at hmem
      rcases (mem_take_flatMap _ (allItems chains) j m).mp hmem with ⟨i, hi, _, hmarks⟩
      exact ((hcond j hj).2 hex m hm).2 i hi hmarks

theorem C1_ValidateIntervals_conflicts_witness :
    ValidateIntervals
        [⟨none, none, [⟨[⟨0, 2⟩], some 0, false, false, false⟩]⟩,
         ⟨none, none, [⟨[⟨0, 2⟩], some 1, false, false, false⟩]⟩]
        2 0 2 (fun _ => false) (fun _ => true) (some fun _ => false) false false
      = .ret true ∧
    ValidateIntervals
        [⟨none, none, [⟨[⟨0, 2⟩], some 0, false, false, false⟩]⟩,
         ⟨none, none, [⟨[⟨1, 3⟩], some 0, false, false, false⟩]⟩]
        2 0 2 (fun _ => false) (fun _ => true) (some fun _ => false) false false
      = .ret false ∧
    ValidateIntervals
        [⟨none, none, [⟨[⟨0, 2⟩], some 0, false, false, false⟩]⟩,
         ⟨none, none, [⟨[⟨1, 3⟩], some 0, false, true, true⟩]⟩]
        2 0 2 (fun _ => false) (fun _ => true) (some fun _ => false) false false
      = .ret true :=
  ⟨(C1_ValidateIntervals_conflicts
      [⟨none, none, [⟨[⟨0, 2⟩], some 0, false, false, false⟩]⟩,
       ⟨none, none, [⟨[⟨0, 2⟩], some 1, false, false, false⟩]⟩]
      2 0 2 (fun _ => false) (fun _ => true) (fun _ => false) false).1 (by decide),
   (C1_ValidateIntervals_conflicts
      [⟨none, none, [⟨[⟨0, 2⟩], some 0, false, false, false⟩]⟩,
       ⟨none, none, [⟨[⟨1, 3⟩], some 0, false, false, false⟩]⟩]
      2 0 2 (fun _ => false) (fun _ => true) (fun _ => false) false).2.1
      0 1 (by decide) (by decide) 0 1 (by decide) (by decide) (by decide),
   (C1_ValidateIntervals_conflicts
      [⟨none, none, [⟨[⟨0, 2⟩], some 0, false, false, false⟩]⟩,
       ⟨none, none, [⟨[⟨1, 3⟩], some 0, false, true, true⟩]⟩]
      2 0 2 (fun _ => false) (fun _ => true) (fun _ => false) false).2.2
      (by
        intro j hj
        rw [show (allItems
            [⟨none, none, [⟨[⟨0, 2⟩], some 0, false, false, false⟩]⟩,
             ⟨none, none, [⟨[⟨1, 3⟩], some 0, false, true, true⟩]⟩]).length = 2 from rfl] at hj
        interval_cases j <;> exact ⟨by decide, by decide⟩)⟩

/-- C8: when two ranges whose parents share an assigned spill slot
overlap at some position and neither defining value is a parameter or
current-method pseudo-value, non-fatal `ValidateIntervals` returns
failure; parameter/current-method values contribute no spill-slot marks
at all; and on the concrete scenario (slot 0, ranges `[4, 8)` and
`[6, 10)`) the non-fatal run returns `false`, the fatal run reports the
spill-slot conflict at position 6, and the parameter-defined variant
succeeds. -/
theorem C8_spill_slot_conflicts (chains : List IntervalChain)
    (nspill nout nregs : Nat) (csave halloc : Nat → Bool) (l : Nat → Bool)
    (debug : Bool) :
    (∀ i j s p : Nat, i < j → j < (allItems chains).length →
      ((allItems chains).getD i default).spillSlot = some s →
      ((allItems chains).getD j default).spillSlot = some s →
      ((allItems chains).getD i default).defIsParamOrCurrentMethod = false →
      ((allItems chains).getD j default).defIsParamOrCurrentMethod = false →
      ((allItems chains).getD i default).range.start ≤ p →
      p < ((allItems chains).getD i default).range.«end» →
      ((allItems chains).getD j default).range.start ≤ p →
      p < ((allItems chains).getD j default).range.«end» →
      ValidateIntervals chains nspill nout nregs csave halloc (some l) debug false
        = .ret false) ∧
    (∀ it : VItem, it.defIsParamOrCurrentMethod = true →
      slotMarks (mkVConfig nregs csave nout (some l) debug halloc false) it = []) ∧
    (ValidateIntervals
        [⟨some 0, some .other, [⟨[⟨4, 8⟩], none, false, false, false⟩]⟩,
         ⟨some 0, some .other, [⟨[⟨6, 10⟩], none, false, false, false⟩]⟩]
        1 0 2 (fun _ => false) (fun _ => true) (some fun _ => false) false false
      = .ret false ∧
    ValidateIntervals
        [⟨some 0, some .other, [⟨[⟨4, 8⟩], none, false, false, false⟩]⟩,
         ⟨some 0, some .other, [⟨[⟨6, 10⟩], none, false, false, false⟩]⟩]
        1 0 2 (fun _ => false) (fun _ => true) (some fun _ => false) false true
      = .fatalSpillConflict 6 ∧
    ValidateIntervals
        [⟨some 0, some .parameterValue, [⟨[⟨4, 8⟩], none, false, false, false⟩]⟩,
         ⟨some 0, some .parameterValue, [⟨[⟨6, 10⟩], none, false, false, false⟩]⟩]
        1 0 2 (fun _ => false) (fun _ => true) (some fun _ => false) false false
      = .ret true) := by
  refine ⟨?_, ?_, by decide, by decide, by decide⟩
  · intro i j s p hij hj hsi hsj hdi hdj h1 h2 h3 h4
    have hmemI : (slotIndex (mkVConfig nregs csave nout (some l) debug halloc false) s, p)
        ∈ slotMarks (mkVConfig nregs csave nout (some l) debug halloc false)
          ((allItems chains).getD i default) :=
      slotMarks_mem _ _ s p hsi hdi h1 h2
    have hmemJ : (slotIndex (mkVConfig nregs csave nout (some l) debug halloc false) s, p)
        ∈ slotMarks (mkVConfig nregs csave nout (some l) debug halloc false)
          ((allItems chains).getD j default) :=
      slotMarks_mem _ _ s p hsj hdj h3 h4
    show runItems (mkVConfig nregs csave nout (some l) debug halloc false)
      emptyTl (allItems chains) = .ret false
    refine runItems_ret_false _ rfl (allItems chains) emptyTl [] tlInv_empty
      (fun it _ => get_register_mask_isSome _ _ l it.sib) ?_
    intro hcf
    have hfree := conflictFreeList_index _ (allItems chains) [] hcf j hj
    refine hfree.1 _ hmemJ ?_
    rw [List.nil_append]
    exact (mem_take_flatMap _ (allItems chains) j _).mpr
      ⟨i, hij, Nat.lt_trans hij hj, List.mem_append_left _ hmemI⟩
  · intro it h
    cases hs : it.spillSlot <;> simp [slotMarks, hs, h]

theorem C8_spill_slot_conflicts_witness :
    ValidateIntervals
        [⟨some 0, some .other, [⟨[⟨4, 8⟩], none, false, false, false⟩]⟩,
         ⟨some 0, some .other, [⟨[⟨6, 10⟩], none, false, false, false⟩]⟩]
        1 0 2 (fun _ => false) (fun _ => true) (some fun _ => false) false false
      = .ret false :=
  (C8_spill_slot_conflicts
      [⟨some 0, some .other, [⟨[⟨4, 8⟩], none, false, false, false⟩]⟩,
       ⟨some 0, some .other, [⟨[⟨6, 10⟩], none, false, false, false⟩]⟩]
      1 0 2 (fun _ => false) (fun _ => true) (fun _ => false) false).1
    0 1 0 6 (by decide) (by decide) (by decide) (by decide) (by decide) (by decide)
    (by decide) (by decide) (by decide) (by decide)

/-- C10: the static `ValidateIntervals` entry point run with a null
liveness pointer (in non-fatal mode) completes with a plain boolean when
every interval either has an assigned register or is not fixed, and
aborts with the `CHECK(liveness != nullptr)` failure at the first
fixed-without-register interval it reaches (its predecessors being
conflict-free, so that processing reaches it). -/
theorem C10_null_liveness (chains : List IntervalChain)
    (nspill nout nregs : Nat) (csave halloc : Nat → Bool) (debug : Bool) :
    ((∀ c ∈ chains, ∀ s ∈ c.siblings, s.register.isSome ∨ s.isFixed = false) →
      ∃ b, ValidateIntervals chains nspill nout nregs csave halloc none debug false
        = .ret b) ∧
    (∀ k, k < (allItems chains).length →
      ((allItems chains).getD k default).sib.register = none →
      ((allItems chains).getD k default).sib.isFixed = true →
      (∀ j, j < k → ¬(((allItems chains).getD j default).sib.register = none ∧
        ((allItems chains).getD j default).sib.isFixed = true)) →
      (((allItems chains).take (k + 1)).flatMap
        (marks (mkVConfig nregs csave nout none debug halloc false))).Nodup →
      ValidateIntervals chains nspill nout nregs csave halloc none debug false
        = .checkFail) := by
  constructor
  · intro h
    show ∃ b, runItems (mkVConfig nregs csave nout none debug halloc false)
      emptyTl (allItems chains) = .ret b
    refine runItems_ret_or _ rfl (allItems chains) emptyTl fun it hit => ?_
    rcases allItems_sib_mem chains it hit with ⟨c, hc, hs⟩
    exact get_register_mask_isSome_of_not_required _ _ _ _ (h c hc it.sib hs)
  · intro k hk hreg hfix hbefore hnd
    show runItems (mkVConfig nregs csave nout none debug halloc false)
      emptyTl (allItems chains) = .checkFail
    refine runItems_checkFail _ rfl (allItems chains) k emptyTl [] tlInv_empty hk
      (nodup_conflictFreeList _ _ [] (by simpa using hnd)) (fun j hj => ?_) ?_
    · have hnot := hbefore j hj
      rcases hrg : ((allItems chains).getD j default).sib.register with _ | r
      · cases hfx : ((allItems chains).getD j default).sib.isFixed
        · exact get_register_mask_isSome_of_not_required _ _ _ _ (Or.inr hfx)
        · exact absurd ⟨hrg, hfx⟩ hnot
      · exact get_register_mask_isSome_of_not_required _ _ _ _
          (Or.inl (by rw [hrg]; rfl))
    · exact (get_register_mask_none_char _ _ _).mpr ⟨hreg, hfix⟩

theorem C10_null_liveness_witness :
    (∃ b, ValidateIntervals
        [⟨none, none, [⟨[⟨0, 2⟩], some 0, false, false, false⟩]⟩]
        0 0 2 (fun _ => false) (fun _ => true) none false false = .ret b) ∧
    ValidateIntervals
        [⟨none, none, [⟨[⟨0, 2⟩], none, true, false, false⟩]⟩]
        0 0 2 (fun _ => false) (fun _ => true) none false false = .checkFail :=
  ⟨(C10_null_liveness [⟨none, none, [⟨[⟨0, 2⟩], some 0, false, false, false⟩]⟩]
      0 0 2 (fun _ => false) (fun _ => true) false).1 (by decide),
   (C10_null_liveness [⟨none, none, [⟨[⟨0, 2⟩], none, true, false, false⟩]⟩]
      0 0 2 (fun _ => false) (fun _ => true) false).2
      0 (by decide) (by decide) (by decide)
      (fun j hj => absurd hj (Nat.not_lt_zero j)) (by decide)⟩

theorem covers_nil (q : Nat) : ¬ covers [] q := by
  simp [covers]

theorem covers_cons (r : LiveRange) (rs : List LiveRange) (q : Nat) :
    covers (r :: rs) q ↔ (r.start ≤ q ∧ q < r.«end») ∨ covers rs q := by
  simp [covers]

theorem rangesWF_tail (r : LiveRange) (rs : List LiveRange)
    (h : rangesWF (r :: rs) = true) : rangesWF rs = true := by
  cases rs with
  | nil => rfl
  | cons r2 rs =>
    have : rangesWF (r :: r2 :: rs)
        = (decide (r.start < r.«end») && decide (r.«end» ≤ r2.start)
            && rangesWF (r2 :: rs)) := rfl
    rw [this] at h
    exact (Bool.and_eq_true_iff.mp h).2

theorem rangesWF_head (r : LiveRange) (rs : List LiveRange)
    (h : rangesWF (r :: rs) = true) : r.start < r.«end» := by
  cases rs with
  | nil => simpa [rangesWF] using h
  | cons r2 rs =>
    have : rangesWF (r :: r2 :: rs)
        = (decide (r.start < r.«end») && decide (r.«end» ≤ r2.start)
            && rangesWF (r2 :: rs)) := rfl
    rw [this] at h
    have := (Bool.and_eq_true_iff.mp (Bool.and_eq_true_iff.mp h).1).1
    simpa using this

theorem rangesWF_gap (r r2 : LiveRange) (rs : List LiveRange)
    (h : rangesWF (r :: r2 :: rs) = true) : r.«end» ≤ r2.start := by
  have heq : rangesWF (r :: r2 :: rs)
      = (decide (r.start < r.«end») && decide (r.«end» ≤ r2.start)
          && rangesWF (r2 :: rs)) := rfl
  rw [heq] at h
  have := (Bool.and_eq_true_iff.mp (Bool.and_eq_true_iff.mp h).1).2
  simpa using this

/-- In a well-formed range list, everything covered by the tail lies at
or after the head range's end. -/
theorem rangesWF_lower (r : LiveRange) :
    ∀ (rs : List LiveRange), rangesWF (r :: rs) = true →
      ∀ q, covers rs q → r.«end» ≤ q := by
  intro rs
  induction rs generalizing r with
  | nil => intro _ q hq; exact absurd hq (covers_nil q)
  | cons r2 rs ih =>
    intro h q hq
    rcases (covers_cons r2 rs q).mp hq with ⟨h1, _⟩ | hc
    · exact Nat.le_trans (rangesWF_gap r r2 rs h) h1
    · have h2 : r2.«end» ≤ q := ih r2 (rangesWF_tail r (r2 :: rs) h) q hc
      have h3 : r2.start < r2.«end» :=
        rangesWF_head r2 rs (rangesWF_tail r (r2 :: rs) h)
      exact Nat.le_trans (rangesWF_gap r r2 rs h) (Nat.le_of_lt (Nat.lt_of_lt_of_le h3 h2))

theorem splitRangesAt_cons (p : Nat) (r : LiveRange) (rs : List LiveRange) :
    splitRangesAt p (r :: rs) =
      if r.«end» ≤ p then
        (r :: (splitRangesAt p rs).1, (splitRangesAt p rs).2)
      else if r.start < p then
        ([⟨r.start, p⟩], ⟨p, r.«end»⟩ :: rs)
      else
        ([], r :: rs) := rfl

/-- The suffix of a split covers exactly the original positions at or
after the split position. -/
theorem covers_splitSuffix (p : Nat) :
    ∀ (rs : List LiveRange), rangesWF rs = true →
      ∀ q, covers (splitRangesAt p rs).2 q ↔ covers rs q ∧ p ≤ q := by
  intro rs
  induction rs with
  | nil =>
    intro _ q
    simp [splitRangesAt, covers]
  | cons r rs ih =>
    intro hwf q
    rw [splitRangesAt_cons]
    by_cases hend : r.«end» ≤ p
    · rw [if_pos hend]
      show covers (splitRangesAt p rs).2 q ↔ _
      rw [ih (rangesWF_tail r rs hwf) q, covers_cons]
      constructor
      · rintro ⟨hc, hp⟩
        exact ⟨Or.inr hc, hp⟩
      · rintro ⟨⟨h1, h2⟩ | hc, hp⟩
        · omega
        · exact ⟨hc, hp⟩
    · by_cases hstart : r.start < p
      · rw [if_neg hend, if_pos hstart]
        show covers (⟨p, r.«end»⟩ :: rs) q ↔ _
        rw [covers_cons, covers_cons]
        dsimp only
        have hlow : covers rs q → r.«end» ≤ q := rangesWF_lower r rs hwf q
        constructor
        · rintro (⟨h1, h2⟩ | hc)
          · exact ⟨Or.inl ⟨by omega, h2⟩, h1⟩
          · have := hlow hc
            exact ⟨Or.inr hc, by omega⟩
        · rintro ⟨⟨h1, h2⟩ | hc, hp⟩
          · exact Or.inl ⟨hp, h2⟩
          · exact Or.inr hc
      · rw [if_neg hend, if_neg hstart]
        show covers (r :: rs) q ↔ _
        have hlow : covers rs q → r.«end» ≤ q := rangesWF_lower r rs hwf q
        constructor
        · intro hc
          refine ⟨hc, ?_⟩
          rcases (covers_cons r rs q).mp hc with ⟨h1, _⟩ | hc2
          · omega
          · have := hlow hc2
            omega
        · exact fun h => h.1

/-- The prefix of a split covers exactly the original positions before
the split position. -/
theorem covers_splitPrefix (p : Nat) :
    ∀ (rs : List LiveRange), rangesWF rs = true →
      ∀ q, covers (splitRangesAt p rs).1 q ↔ covers rs q ∧ q < p := by
  intro rs
  induction rs with
  | nil =>
    intro _ q
    simp [splitRangesAt, covers]
  | cons r rs ih =>
    intro hwf q
    rw [splitRangesAt_cons]
    by_cases hend : r.«end» ≤ p
    · rw [if_pos hend]
      show covers (r :: (splitRangesAt p rs).1) q ↔ _
      rw [covers_cons, ih (rangesWF_tail r rs hwf) q, covers_cons]
      constructor
      · rintro (⟨h1, h2⟩ | ⟨hc, hq⟩)
        · exact ⟨Or.inl ⟨h1, h2⟩, by omega⟩
        · exact ⟨Or.inr hc, hq⟩
      · rintro ⟨⟨h1, h2⟩ | hc, hq⟩
        · exact Or.inl ⟨h1, h2⟩
        · exact Or.inr ⟨hc, hq⟩
    · by_cases hstart : r.start < p
      · rw [if_neg hend, if_pos hstart]
        show covers [⟨r.start, p⟩] q ↔ _
        rw [covers_cons]
        dsimp only
        have hlow : covers rs q → r.«end» ≤ q := rangesWF_lower r rs hwf q
        constructor
        · rintro (⟨h1, h2⟩ | hc)
          · exact ⟨(covers_cons r rs q).mpr (Or.inl ⟨h1, by omega⟩), h2⟩
          · exact absurd hc (covers_nil q)
        · rintro ⟨hc, hq⟩
          rcases (covers_cons r rs q).mp hc with ⟨h1, _⟩ | hc2
          · exact Or.inl ⟨h1, hq⟩
          · have := hlow hc2
            omega
      · rw [if_neg hend, if_neg hstart]
        show covers [] q ↔ _
        have hlow : covers rs q → r.«end» ≤ q := rangesWF_lower r rs hwf q
        constructor
        · intro hc
          exact absurd hc (covers_nil q)
        · rintro ⟨hc, hq⟩
          rcases (covers_cons r rs q).mp hc with ⟨h1, _⟩ | hc2
          · omega
          · have := hlow hc2
            omega

/-- When the original covers the split position, the suffix starts
exactly there. -/
theorem splitSuffix_head (p : Nat) :
    ∀ (rs : List LiveRange), rangesWF rs = true → covers rs p →
      (((splitRangesAt p rs).2.headD default).start) = p := by
  intro rs
  induction rs with
  | nil => intro _ hc; exact absurd hc (covers_nil p)
  | cons r rs ih =>
    intro hwf hc
    rw [splitRangesAt_cons]
    by_cases hend : r.«end» ≤ p
    · rw [if_pos hend]
      show (((splitRangesAt p rs).2.headD default).start) = p
      refine ih (rangesWF_tail r rs hwf) ?_
      rcases (covers_cons r rs p).mp hc with ⟨_, h2⟩ | hc2
      · omega
      · exact hc2
    · by_cases hstart : r.start < p
      · rw [if_neg hend, if_pos hstart]
        rfl
      · rw [if_neg hend, if_neg hstart]
        show r.start = p
        rcases (covers_cons r rs p).mp hc with ⟨h1, _⟩ | hc2
        · omega
        · have := rangesWF_lower r rs hwf p hc2
          omega

/-- C3: `Split(interval, interval.start)` creates no new interval: it
returns the same interval index over a store of unchanged size, with the
interval's register cleared and its ranges untouched, and clears the
register of the high companion (or, absent one, of the low companion). -/
theorem C3_Split_at_start_clears (st : Store) (i : Nat) (hi : i < st.length) :
    (Split st i (intervalStart (sget st i))).2 = i ∧
    (Split st i (intervalStart (sget st i))).1.length = st.length ∧
    (sget (Split st i (intervalStart (sget st i))).1 i).register = none ∧
    (sget (Split st i (intervalStart (sget st i))).1 i).ranges = (sget st i).ranges ∧
    (∀ h, (sget st i).high = some h → h < st.length →
      (sget (Split st i (intervalStart (sget st i))).1 h).register = none) ∧
    (∀ lo, (sget st i).high = none → (sget st i).low = some lo → lo < st.length →
      (sget (Split st i (intervalStart (sget st i))).1 lo).register = none) := by
  unfold Split
  rw [if_pos rfl]
  rcases hh : (sget st i).high with _ | h
  · rcases hl : (sget st i).low with _ | lo
    · simp only [hh, hl]
      refine ⟨by trivial, List.length_set st i _, ?_, ?_, ?_, ?_⟩
      · rw [sget_set_self st i _ hi]
      · rw [sget_set_self st i _ hi]
      · intro h hcomp _
        exact Option.noConfusion hcomp
      · intro lo _ hcomp _
        exact Option.noConfusion hcomp
    · simp only [hh, hl]
      refine ⟨by trivial, by rw [List.length_set, List.length_set], ?_, ?_, ?_, ?_⟩
      · by_cases hloi : lo = i
        · subst hloi
          rw [sget_set_self _ lo _ (by rw [List.length_set]; exact hi)]
        · rw [sget_set_ne _ i lo _ hloi, sget_set_self st i _ hi]
      · by_cases hloi : lo = i
        · subst hloi
          rw [sget_set_self _ lo _ (by rw [List.length_set]; exact hi),
            sget_set_self st lo _ hi]
        · rw [sget_set_ne _ i lo _ hloi, sget_set_self st i _ hi]
      · intro h hcomp _
        exact Option.noConfusion hcomp
      · intro lo2 _ hcomp hlo2
        have heq2 : lo2 = lo := (Option.some.inj hcomp).symm
        subst heq2
        rw [sget_set_self _ lo2 _ (by rw [List.length_set]; exact hlo2)]
  · simp only [hh]
    refine ⟨by trivial, by rw [List.length_set, List.length_set], ?_, ?_, ?_, ?_⟩
    · by_cases hhi : h = i
      · subst hhi
        rw [sget_set_self _ h _ (by rw [List.length_set]; exact hi)]
      · rw [sget_set_ne _ i h _ hhi, sget_set_self st i _ hi]
    · by_cases hhi : h = i
      · subst hhi
        rw [sget_set_self _ h _ (by rw [List.length_set]; exact hi),
          sget_set_self st h _ hi]
      · rw [sget_set_ne _ i h _ hhi, sget_set_self st i _ hi]
    · intro h2 hcomp hh2
      have heq2 : h2 = h := (Option.some.inj hcomp).symm
      subst heq2
      rw [sget_set_self _ h2 _ (by rw [List.length_set]; exact hh2)]
    · intro lo hcomp _ _
      exact Option.noConfusion hcomp

/-- Complete characterization of `SplitAt`: the new interval sits at the
old store end holding the suffix ranges and inheriting the sibling link,
the original keeps the prefix and points to the new interval, and every
other record is untouched. -/
theorem SplitAt_spec (st : Store) (i p : Nat) (hi : i < st.length) :
    (SplitAt st i p).2 = st.length ∧
    (SplitAt st i p).1.length = st.length + 1 ∧
    (sget (SplitAt st i p).1 i).ranges = (splitRangesAt p (sget st i).ranges).1 ∧
    (sget (SplitAt st i p).1 i).nextSibling = some st.length ∧
    (sget (SplitAt st i p).1 st.length)
      = ⟨(splitRangesAt p (sget st i).ranges).2, none, (sget st i).nextSibling,
          none, none⟩ ∧
    (∀ j, j < st.length → j ≠ i → sget (SplitAt st i p).1 j = sget st j) := by
  unfold SplitAt
  refine ⟨rfl, ?_, ?_, ?_, ?_, ?_⟩
  · simp [List.length_set]
  · rw [sget_append_lt _ _ i (by rw [List.length_set]; exact hi),
      sget_set_self st i _ hi]
  · rw [sget_append_lt _ _ i (by rw [List.length_set]; exact hi),
      sget_set_self st i _ hi]
  · rw [sget_concat_length_set]
  · intro j hj hji
    rw [sget_append_lt _ _ j (by rw [List.length_set]; exact hj),
      sget_set_ne st j i _ (fun hx => hji hx.symm)]

/-- C2: `Split(interval, p)` for `start < p` on an interval live at `p`
(per the data model, covered by one of its ranges) returns a new
interval: the new index is the old store end, distinct from the
original; the new interval starts at `p` and holds exactly the suffix of
the original's ranges at `p`; the original keeps the prefix and links
the new interval as its next sibling; together the two cover exactly the
original's liveness with no overlap; and a high (or, absent one, low)
companion is split at the same position `p`, with the two new halves
cross-linked. -/
theorem C2_Split_suffix_sibling (st : Store) (i p : Nat)
    (hi : i < st.length)
    (hwf : rangesWF (sget st i).ranges = true)
    (hlive : covers (sget st i).ranges p)
    (hgt : intervalStart (sget st i) < p)
    (hhigh : ∀ h, (sget st i).high = some h → h < st.length ∧ h ≠ i)
    (hlow : ∀ lo, (sget st i).low = some lo → lo < st.length ∧ lo ≠ i) :
    (Split st i p).2 = st.length ∧
    (Split st i p).2 ≠ i ∧
    (sget (Split st i p).1 (Split st i p).2).ranges
      = (splitRangesAt p (sget st i).ranges).2 ∧
    intervalStart (sget (Split st i p).1 (Split st i p).2) = p ∧
    (sget (Split st i p).1 i).ranges = (splitRangesAt p (sget st i).ranges).1 ∧
    (sget (Split st i p).1 i).nextSibling = some (Split st i p).2 ∧
    (∀ q, covers (sget (Split st i p).1 i).ranges q
        ∨ covers (sget (Split st i p).1 (Split st i p).2).ranges q
      ↔ covers (sget st i).ranges q) ∧
    (∀ q, ¬(covers (sget (Split st i p).1 i).ranges q
        ∧ covers (sget (Split st i p).1 (Split st i p).2).ranges q)) ∧
    (∀ h, (sget st i).high = some h →
      (sget (Split st i p).1 h).ranges = (splitRangesAt p (sget st h).ranges).1 ∧
      (sget (Split st i p).1 h).nextSibling = some (st.length + 1) ∧
      (sget (Split st i p).1 (st.length + 1)).ranges
        = (splitRangesAt p (sget st h).ranges).2 ∧
      (sget (Split st i p).1 (Split st i p).2).high = some (st.length + 1) ∧
      (sget (Split st i p).1 (st.length + 1)).low = some (Split st i p).2) ∧
    (∀ lo, (sget st i).high = none → (sget st i).low = some lo →
      (sget (Split st i p).1 lo).ranges = (splitRangesAt p (sget st lo).ranges).1 ∧
      (sget (Split st i p).1 lo).nextSibling = some (st.length + 1) ∧
      (sget (Split st i p).1 (st.length + 1)).ranges
        = (splitRangesAt p (sget st lo).ranges).2 ∧
      (sget (Split st i p).1 (Split st i p).2).low = some (st.length + 1) ∧
      (sget (Split st i p).1 (st.length + 1)).high = some (Split st i p).2) := by
  have hne : ¬ p = intervalStart (sget st i) := by omega
  obtain ⟨hs2, hslen, hsri, hssi, hsnew, hspre⟩ := SplitAt_spec st i p hi
  rcases hh : (sget st i).high with _ | h
  · rcases hl : (sget st i).low with _ | lo
    · -- no companion: the result is exactly `SplitAt`
      have hres : Split st i p = SplitAt st i p := by
        unfold Split
        rw [if_neg hne, hh, hl]
      rw [hres]
      refine ⟨hs2, by omega, ?_, ?_, hsri, by rw [hs2, hssi], ?_, ?_, ?_, ?_⟩
      · rw [hs2, hsnew]
      · rw [hs2, hsnew]
        exact splitSuffix_head p _ hwf hlive
      · intro q
        rw [hsri, hs2, hsnew]
        show covers (splitRangesAt p (sget st i).ranges).1 q
            ∨ covers (splitRangesAt p (sget st i).ranges).2 q
          ↔ covers (sget st i).ranges q
        rw [covers_splitPrefix p _ hwf q, covers_splitSuffix p _ hwf q]
        constructor
        · rintro (⟨h1, _⟩ | ⟨h1, _⟩) <;> exact h1
        · intro h1
          by_cases hq : q < p
          · exact Or.inl ⟨h1, hq⟩
          · exact Or.inr ⟨h1, by omega⟩
      · intro q
        rw [hsri, hs2, hsnew]
        show ¬ (covers (splitRangesAt p (sget st i).ranges).1 q
            ∧ covers (splitRangesAt p (sget st i).ranges).2 q)
        rw [covers_splitPrefix p _ hwf q, covers_splitSuffix p _ hwf q]
        rintro ⟨⟨_, h1⟩, _, h2⟩
        omega
      · intro h hcomp
        exact Option.noConfusion hcomp
      · intro lo _ hcomp
        exact Option.noConfusion hcomp
    · -- low companion
      obtain ⟨hllt, hlne⟩ := hlow lo hl
      obtain ⟨hq2, hqlen, hqri, hqsi, hqnew, hqpre⟩ :=
        SplitAt_spec (SplitAt st i p).1 lo p (by rw [hslen]; omega)
      rw [hslen] at hq2 hqlen hqsi hqnew
      have hres : Split st i p
          = (((SplitAt (SplitAt st i p).1 lo p).1.set (SplitAt st i p).2
                { sget (SplitAt (SplitAt st i p).1 lo p).1 (SplitAt st i p).2 with
                    low := some (SplitAt (SplitAt st i p).1 lo p).2 }).set
              (SplitAt (SplitAt st i p).1 lo p).2
              { sget (SplitAt (SplitAt st i p).1 lo p).1
                  (SplitAt (SplitAt st i p).1 lo p).2 with
                  high := some (SplitAt st i p).2 },
            (SplitAt st i p).2) := by
        unfold Split
        rw [if_neg hne, hh, hl]
      rw [hres]
      rw [hs2, hq2]
      have hplo : sget (SplitAt (SplitAt st i p).1 lo p).1 st.length
          = ⟨(splitRangesAt p (sget st i).ranges).2, none, (sget st i).nextSibling,
              none, none⟩ := by
        rw [hqpre st.length (by rw [hslen]; omega) (by omega), hsnew]
      have hpio : sget (SplitAt (SplitAt st i p).1 lo p).1 i
          = sget (SplitAt st i p).1 i :=
        hqpre i (by rw [hslen]; omega) (fun hx => hlne hx.symm)
      have hloOld : sget (SplitAt st i p).1 lo = sget st lo := hspre lo hllt hlne
      refine ⟨rfl, by omega, ?_, ?_, ?_, ?_, ?_, ?_, ?_, ?_⟩
      · rw [sget_set_ne _ st.length (st.length + 1) _ (by omega),
          sget_set_self _ st.length _ (by rw [hqlen]; omega), hplo]
      · rw [sget_set_ne _ st.length (st.length + 1) _ (by omega),
          sget_set_self _ st.length _ (by rw [hqlen]; omega), hplo]
        exact splitSuffix_head p _ hwf hlive
      · rw [sget_set_ne _ i (st.length + 1) _ (by omega),
          sget_set_ne _ i st.length _ (by omega), hpio, hsri]
      · rw [sget_set_ne _ i (st.length + 1) _ (by omega),
          sget_set_ne _ i st.length _ (by omega), hpio, hssi]
      · intro q
        rw [sget_set_ne _ i (st.length + 1) _ (by omega),
          sget_set_ne _ i st.length _ (by omega), hpio, hsri,
          sget_set_ne _ st.length (st.length + 1) _ (by omega),
          sget_set_self _ st.length _ (by rw [hqlen]; omega), hplo]
        show covers (splitRangesAt p (sget st i).ranges).1 q
            ∨ covers (splitRangesAt p (sget st i).ranges).2 q
          ↔ covers (sget st i).ranges q
        rw [covers_splitPrefix p _ hwf q, covers_splitSuffix p _ hwf q]
        constructor
        · rintro (⟨h1, _⟩ | ⟨h1, _⟩) <;> exact h1
        · intro h1
          by_cases hq : q < p
          · exact Or.inl ⟨h1, hq⟩
          · exact Or.inr ⟨h1, by omega⟩
      · intro q
        rw [sget_set_ne _ i (st.length + 1) _ (by omega),
          sget_set_ne _ i st.length _ (by omega), hpio, hsri,
          sget_set_ne _ st.length (st.length + 1) _ (by omega),
          sget_set_self _ st.length _ (by rw [hqlen]; omega), hplo]
        show ¬ (covers (splitRangesAt p (sget st i).ranges).1 q
            ∧ covers (splitRangesAt p (sget st i).ranges).2 q)
        rw [covers_splitPrefix p _ hwf q, covers_splitSuffix p _ hwf q]
        rintro ⟨⟨_, h1⟩, _, h2⟩
        omega
      · intro h hcomp
        exact Option.noConfusion hcomp
      · intro lo2 _ hcomp
        have heq2 : lo2 = lo := (Option.some.inj hcomp).symm
        subst heq2
        refine ⟨?_, ?_, ?_, ?_, ?_⟩
        · rw [sget_set_ne _ lo2 (st.length + 1) _ (by omega),
            sget_set_ne _ lo2 st.length _ (by omega), hqri, hloOld]
        · rw [sget_set_ne _ lo2 (st.length + 1) _ (by omega),
            sget_set_ne _ lo2 st.length _ (by omega), hqsi]
        · rw [sget_set_self _ (st.length + 1) _
              (by rw [List.length_set, hqlen]; omega), hqnew, hloOld]
        · rw [sget_set_ne _ st.length (st.length + 1) _ (by omega),
            sget_set_self _ st.length _ (by rw [hqlen]; omega), hplo]
        · rw [sget_set_self _ (st.length + 1) _
              (by rw [List.length_set, hqlen]; omega), hqnew]
  · -- high companion
    obtain ⟨hhlt, hhne⟩ := hhigh h hh
    obtain ⟨hq2, hqlen, hqri, hqsi, hqnew, hqpre⟩ :=
      SplitAt_spec (SplitAt st i p).1 h p (by rw [hslen]; omega)
    rw [hslen] at hq2 hqlen hqsi hqnew
    have hres : Split st i p
        = (((SplitAt (SplitAt st i p).1 h p).1.set (SplitAt st i p).2
              { sget (SplitAt (SplitAt st i p).1 h p).1 (SplitAt st i p).2 with
                  high := some (SplitAt (SplitAt st i p).1 h p).2 }).set
            (SplitAt (SplitAt st i p).1 h p).2
            { sget (SplitAt (SplitAt st i p).1 h p).1
                (SplitAt (SplitAt st i p).1 h p).2 with
                low := some (SplitAt st i p).2 },
          (SplitAt st i p).2) := by
      unfold Split
      rw [if_neg hne, hh]
    rw [hres]
    rw [hs2, hq2]
    have hplo : sget (SplitAt (SplitAt st i p).1 h p).1 st.length
        = ⟨(splitRangesAt p (sget st i).ranges).2, none, (sget st i).nextSibling,
            none, none⟩ := by
      rw [hqpre st.length (by rw [hslen]; omega) (by omega), hsnew]
    have hpio : sget (SplitAt (SplitAt st i p).1 h p).1 i
        = sget (SplitAt st i p).1 i :=
      hqpre i (by rw [hslen]; omega) (fun hx => hhne hx.symm)
    have hhOld : sget (SplitAt st i p).1 h = sget st h := hspre h hhlt hhne
    refine ⟨rfl, by omega, ?_, ?_, ?_, ?_, ?_, ?_, ?_, ?_⟩
    · rw [sget_set_ne _ st.length (st.length + 1) _ (by omega),
        sget_set_self _ st.length _ (by rw [hqlen]; omega), hplo]
    · rw [sget_set_ne _ st.length (st.length + 1) _ (by omega),
        sget_set_self _ st.length _ (by rw [hqlen]; omega), hplo]
      exact splitSuffix_head p _ hwf hlive
    · rw [sget_set_ne _ i (st.length + 1) _ (by omega),
        sget_set_ne _ i st.length _ (by omega), hpio, hsri]
    · rw [sget_set_ne _ i (st.length + 1) _ (by omega),
        sget_set_ne _ i st.length _ (by omega), hpio, hssi]
    · intro q
      rw [sget_set_ne _ i (st.length + 1) _ (by omega),
        sget_set_ne _ i st.length _ (by omega), hpio, hsri,
        sget_set_ne _ st.length (st.length + 1) _ (by omega),
        sget_set_self _ st.length _ (by rw [hqlen]; omega), hplo]
      show covers (splitRangesAt p (sget st i).ranges).1 q
          ∨ covers (splitRangesAt p (sget st i).ranges).2 q
        ↔ covers (sget st i).ranges q
      rw [covers_splitPrefix p _ hwf q, covers_splitSuffix p _ hwf q]
      constructor
      · rintro (⟨h1, _⟩ | ⟨h1, _⟩) <;> exact h1
      · intro h1
        by_cases hq : q < p
        · exact Or.inl ⟨h1, hq⟩
        · exact Or.inr ⟨h1, by omega⟩
    · intro q
      rw [sget_set_ne _ i (st.length + 1) _ (by omega),
        sget_set_ne _ i st.length _ (by omega), hpio, hsri,
        sget_set_ne _ st.length (st.length + 1) _ (by omega),
        sget_set_self _ st.length _ (by rw [hqlen]; omega), hplo]
      show ¬ (covers (splitRangesAt p (sget st i).ranges).1 q
          ∧ covers (splitRangesAt p (sget st i).ranges).2 q)
      rw [covers_splitPrefix p _ hwf q, covers_splitSuffix p _ hwf q]
      rintro ⟨⟨_, h1⟩, _, h2⟩
      omega
    · intro h2 hcomp
      have heq2 : h2 = h := (Option.some.inj hcomp).symm
      subst heq2
      refine ⟨?_, ?_, ?_, ?_, ?_⟩
      · rw [sget_set_ne _ h2 (st.length + 1) _ (by omega),
          sget_set_ne _ h2 st.length _ (by omega), hqri, hhOld]
      · rw [sget_set_ne _ h2 (st.length + 1) _ (by omega),
          sget_set_ne _ h2 st.length _ (by omega), hqsi]
      · rw [sget_set_self _ (st.length + 1) _
            (by rw [List.length_set, hqlen]; omega), hqnew, hhOld]
      · rw [sget_set_ne _ st.length (st.length + 1) _ (by omega),
          sget_set_self _ st.length _ (by rw [hqlen]; omega), hplo]
      · rw [sget_set_self _ (st.length + 1) _
            (by rw [List.length_set, hqlen]; omega), hqnew]
    · intro lo hcomp _
      exact Option.noConfusion hcomp

theorem C2_Split_suffix_sibling_witness :
    (Split [(⟨[⟨0, 10⟩], some 5, none, some 1, none⟩ : IntervalData),
            ⟨[⟨0, 10⟩], some 6, none, none, some 0⟩] 0 4).2 = 2 ∧
    (sget (Split [(⟨[⟨0, 10⟩], some 5, none, some 1, none⟩ : IntervalData),
            ⟨[⟨0, 10⟩], some 6, none, none, some 0⟩] 0 4).1 0).nextSibling = some 2 ∧
    intervalStart (sget (Split [(⟨[⟨0, 10⟩], some 5, none, some 1, none⟩ : IntervalData),
            ⟨[⟨0, 10⟩], some 6, none, none, some 0⟩] 0 4).1 2) = 4 ∧
    ((covers (sget (Split [(⟨[⟨0, 10⟩], some 5, none, some 1, none⟩ : IntervalData),
            ⟨[⟨0, 10⟩], some 6, none, none, some 0⟩] 0 4).1 0).ranges 7
        ∨ covers (sget (Split [(⟨[⟨0, 10⟩], some 5, none, some 1, none⟩ : IntervalData),
            ⟨[⟨0, 10⟩], some 6, none, none, some 0⟩] 0 4).1 2).ranges 7)
      ↔ covers (sget [(⟨[⟨0, 10⟩], some 5, none, some 1, none⟩ : IntervalData),
            ⟨[⟨0, 10⟩], some 6, none, none, some 0⟩] 0).ranges 7) ∧
    (sget (Split [(⟨[⟨0, 10⟩], some 5, none, some 1, none⟩ : IntervalData),
            ⟨[⟨0, 10⟩], some 6, none, none, some 0⟩] 0 4).1 1).nextSibling = some 3 ∧
    (sget (Split [(⟨[⟨0, 10⟩], some 5, none, some 1, none⟩ : IntervalData),
            ⟨[⟨0, 10⟩], some 6, none, none, some 0⟩] 0 4).1 2).high = some 3 ∧
    (sget (Split [(⟨[⟨0, 10⟩], some 5, none, some 1, none⟩ : IntervalData),
            ⟨[⟨0, 10⟩], some 6, none, none, some 0⟩] 0 4).1 3).low = some 2 := by
  have h := C2_Split_suffix_sibling
    [(⟨[⟨0, 10⟩], some 5, none, some 1, none⟩ : IntervalData),
     ⟨[⟨0, 10⟩], some 6, none, none, some 0⟩]
    0 4 (by decide) (by decide) (by decide) (by decide)
    (fun hq hcomp => by
      have heq : (1 : Nat) = hq := Option.some.inj hcomp
      subst heq
      exact ⟨by decide, by decide⟩)
    (fun lo hcomp => Option.noConfusion hcomp)
  have hc := h.2.2.2.2.2.2.2.2.1 1 rfl
  exact ⟨h.1, h.2.2.2.2.2.1, h.2.2.2.1, h.2.2.2.2.2.2.1 7,
    hc.2.1, hc.2.2.2.1, hc.2.2.2.2⟩

theorem C3_Split_at_start_clears_witness :
    (Split [(⟨[⟨0, 4⟩], some 2, none, some 1, none⟩ : IntervalData),
            ⟨[⟨0, 4⟩], some 3, none, none, some 0⟩] 0
        (intervalStart (sget [(⟨[⟨0, 4⟩], some 2, none, some 1, none⟩ : IntervalData),
            ⟨[⟨0, 4⟩], some 3, none, none, some 0⟩] 0))).2 = 0 ∧
    (Split [(⟨[⟨0, 4⟩], some 2, none, some 1, none⟩ : IntervalData),
            ⟨[⟨0, 4⟩], some 3, none, none, some 0⟩] 0
        (intervalStart (sget [(⟨[⟨0, 4⟩], some 2, none, some 1, none⟩ : IntervalData),
            ⟨[⟨0, 4⟩], some 3, none, none, some 0⟩] 0))).1.length = 2 ∧
    (sget (Split [(⟨[⟨0, 4⟩], some 2, none, some 1, none⟩ : IntervalData),
            ⟨[⟨0, 4⟩], some 3, none, none, some 0⟩] 0
        (intervalStart (sget [(⟨[⟨0, 4⟩], some 2, none, some 1, none⟩ : IntervalData),
            ⟨[⟨0, 4⟩], some 3, none, none, some 0⟩] 0))).1 0).register = none ∧
    (sget (Split [(⟨[⟨0, 4⟩], some 2, none, some 1, none⟩ : IntervalData),
            ⟨[⟨0, 4⟩], some 3, none, none, some 0⟩] 0
        (intervalStart (sget [(⟨[⟨0, 4⟩], some 2, none, some 1, none⟩ : IntervalData),
            ⟨[⟨0, 4⟩], some 3, none, none, some 0⟩] 0))).1 1).register = none := by
  have h := C3_Split_at_start_clears
    [(⟨[⟨0, 4⟩], some 2, none, some 1, none⟩ : IntervalData),
     ⟨[⟨0, 4⟩], some 3, none, none, some 0⟩] 0 (by decide)
  exact ⟨h.1, h.2.1, h.2.2.1, h.2.2.2.2.1 1 rfl (by decide)⟩

end ART
